import Mathlib

/-!
Verification of the pegboard-blog search engine.

Shallow embedding of the Go sources:
* `grid/grid.go` — points, bounds, row-major traversal, squared separations,
  and the solution validator;
* `placer/placer.go` — the ordered stone placer state machine (generic over
  the `SeparationSet` implementation it is constructed with);
* `solver/solver.go` — the sequential depth-first solver;
* `sets/sets.go` — the map-based and bit-array membership sets;
* the pruner package and the preallocated (no-alloc) placer variants.

Machine integers: all grid coordinates and separations are embedded as `Nat`
(the program refuses grids larger than 14×14, so the Go `uint8`/`uint16`/`int16`
arithmetic never wraps on the modelled domain; `Separation` mirrors the Go
formula through `Int` subtraction).
-/

namespace Pegboard

/-- `Grid` from grid.go: an N×N square grid (`Size uint8`). -/
structure Grid where
  size : Nat
deriving DecidableEq, Repr

/-- `Point` from grid.go: the coordinate of a stone (`Row`, `Col`). -/
structure Point where
  row : Nat
  col : Nat
deriving DecidableEq, Repr

/-- `IsInBounds` from grid.go: `p.Row < g.Size && p.Col < g.Size`. -/
def IsInBounds (g : Grid) (p : Point) : Bool :=
  decide (p.row < g.size) && decide (p.col < g.size)

/-- `AdvanceStone` from grid.go: next point in left-to-right, top-to-bottom
traversal; the result is not guaranteed to be on the grid. -/
def AdvanceStone (g : Grid) (p : Point) : Point :=
  if p.col + 1 = g.size then ⟨p.row + 1, 0⟩ else ⟨p.row, p.col + 1⟩

/-- `LessThan` from grid.go: strict row-major order on points. -/
def LessThan (p1 p2 : Point) : Bool :=
  decide (p1.row < p2.row) || (decide (p1.row = p2.row) && decide (p1.col < p2.col))

/-- `Separation` from grid.go: squared euclidean distance
`(r1-r2)² + (c1-c2)²`, computed through signed subtraction. -/
def Separation (p1 p2 : Point) : Nat :=
  (((p1.row : Int) - (p2.row : Int)) * ((p1.row : Int) - (p2.row : Int)) +
    ((p1.col : Int) - (p2.col : Int)) * ((p1.col : Int) - (p2.col : Int))).toNat

/-- Inner loop of `IsValidSolution`: check stone `p1` against each later stone,
accumulating the separations seen so far; `none` models the early `return false`
(a zero separation or a duplicate separation). -/
def pairLoop (seps : Finset Nat) (p1 : Point) : List Point → Option (Finset Nat)
  | [] => some seps
  | p2 :: rest =>
    let s := Separation p1 p2
    if s = 0 then none
    else if s ∈ seps then none
    else pairLoop (insert s seps) p1 rest

/-- Outer loop of `IsValidSolution`: bounds check per stone, then the pair
checks, threading the accumulated separation set. -/
def validLoop (g : Grid) (seps : Finset Nat) : List Point → Bool
  | [] => true
  | p1 :: rest =>
    IsInBounds g p1 &&
      match pairLoop seps p1 rest with
      | none => false
      | some seps2 => validLoop g seps2 rest

/-- `IsValidSolution` from grid.go: the stone count equals the grid side and
the scan over all ordered pairs finds every stone in bounds, no coincident
stones, and no duplicated separation. -/
def IsValidSolution (g : Grid) (p : List Point) : Bool :=
  decide (p.length = g.size) && validLoop g ∅ p

/-- All pairwise separations of a placement list, head stone against each
later stone first (the order the validator inserts them). -/
def sepList : List Point → List Nat
  | [] => []
  | p :: rest => rest.map (Separation p) ++ sepList rest

/-! ### Basic facts about the grid primitives -/

theorem Separation.comm (p q : Point) : Separation p q = Separation q p := by
  unfold Separation
  ring_nf

theorem Separation.eq_zero_iff (p q : Point) : Separation p q = 0 ↔ p = q := by
  unfold Separation
  constructor
  · intro h
    have hr : ((p.row : Int) - q.row) * ((p.row : Int) - q.row) +
        ((p.col : Int) - q.col) * ((p.col : Int) - q.col) ≤ 0 := by
      by_contra hpos
      push_neg at hpos
      have := Int.toNat_of_nonneg (le_of_lt hpos)
      omega
    have h1 := mul_self_nonneg ((p.row : Int) - q.row)
    have h2 := mul_self_nonneg ((p.col : Int) - q.col)
    have hr0 : ((p.row : Int) - q.row) * ((p.row : Int) - q.row) = 0 := by omega
    have hc0 : ((p.col : Int) - q.col) * ((p.col : Int) - q.col) = 0 := by omega
    have hr1 : (p.row : Int) = q.row := sub_eq_zero.mp (mul_self_eq_zero.mp hr0)
    have hc1 : (p.col : Int) = q.col := sub_eq_zero.mp (mul_self_eq_zero.mp hc0)
    have hrow : p.row = q.row := by exact_mod_cast hr1
    have hcol : p.col = q.col := by exact_mod_cast hc1
    cases p; cases q
    simp only [Point.mk.injEq]
    exact ⟨hrow, hcol⟩
  · intro h
    subst h
    simp

theorem lessThan_iff {p q : Point} :
    LessThan p q = true ↔ (p.row < q.row ∨ (p.row = q.row ∧ p.col < q.col)) := by
  simp [LessThan]

theorem lessThan_advanceStone (g : Grid) (p : Point) :
    LessThan p (AdvanceStone g p) = true := by
  unfold AdvanceStone
  by_cases h : p.col + 1 = g.size <;> simp [h, lessThan_iff]

theorem lessThan_trans {p q r : Point} (h1 : LessThan p q = true)
    (h2 : LessThan q r = true) : LessThan p r = true := by
  rw [lessThan_iff] at *
  omega

theorem lessThan_ne {p q : Point} (h : LessThan p q = true) : p ≠ q := by
  rw [lessThan_iff] at h
  intro he
  subst he
  omega

/-! ### Characterizing the validator loops -/

theorem pairLoop_isSome_iff (p1 : Point) (l : List Point) (S : Finset Nat) :
    (pairLoop S p1 l).isSome = true ↔
      (l.map (Separation p1)).Nodup ∧ ∀ s ∈ l.map (Separation p1), s ∉ S ∧ s ≠ 0 := by
  induction l generalizing S with
  | nil => simp [pairLoop]
  | cons p2 rest ih =>
    by_cases h0 : Separation p1 p2 = 0
    · simp [pairLoop, h0]
    · by_cases hm : Separation p1 p2 ∈ S
      · simp only [pairLoop, h0, if_false, hm, if_true]
        simp only [Option.isSome_none, List.map_cons]
        constructor
        · intro h
          exact absurd h (by simp)
        · rintro ⟨-, hall⟩
          exact absurd hm (hall _ (by simp)).1
      · simp only [pairLoop, h0, if_false, hm, if_true]
        rw [ih]
        simp only [List.map_cons, List.nodup_cons, List.mem_cons]
        constructor
        · rintro ⟨hnd, hall⟩
          refine ⟨⟨fun hmem => (hall _ hmem).1 (Finset.mem_insert_self _ _), hnd⟩, ?_⟩
          rintro s (rfl | hmem)
          · exact ⟨hm, h0⟩
          · have := hall _ hmem
            exact ⟨fun hs => this.1 (Finset.mem_insert_of_mem hs), this.2⟩
        · rintro ⟨⟨hnotin, hnd⟩, hall⟩
          refine ⟨hnd, ?_⟩
          intro s hmem
          have := hall s (Or.inr hmem)
          refine ⟨fun hs => ?_, this.2⟩
          rcases Finset.mem_insert.mp hs with rfl | hs
          · exact hnotin hmem
          · exact this.1 hs

theorem pairLoop_eq_some (p1 : Point) (l : List Point) (S T : Finset Nat)
    (h : pairLoop S p1 l = some T) :
    T = S ∪ (l.map (Separation p1)).toFinset := by
  induction l generalizing S with
  | nil =>
    simp [pairLoop] at h
    simp [← h]
  | cons p2 rest ih =>
    by_cases h0 : Separation p1 p2 = 0
    · simp [pairLoop, h0] at h
    · by_cases hm : Separation p1 p2 ∈ S
      · simp [pairLoop, h0, hm] at h
      · simp only [pairLoop, h0, if_false, hm, if_true] at h
        have := ih _ h
        rw [this]
        ext s
        simp only [Finset.mem_union, Finset.mem_insert, List.map_cons,
          List.toFinset_cons, List.mem_toFinset]
        tauto

theorem validLoop_iff (g : Grid) (l : List Point) (S : Finset Nat) :
    validLoop g S l = true ↔
      (∀ q ∈ l, IsInBounds g q = true) ∧ (sepList l).Nodup ∧
        ∀ s ∈ sepList l, s ∉ S ∧ s ≠ 0 := by
  induction l generalizing S with
  | nil => simp [validLoop, sepList]
  | cons p rest ih =>
    simp only [validLoop, Bool.and_eq_true, sepList]
    constructor
    · rintro ⟨hb, hmatch⟩
      cases hpl : pairLoop S p rest with
      | none => rw [hpl] at hmatch; simp at hmatch
      | some T =>
        rw [hpl] at hmatch
        have hsome : (pairLoop S p rest).isSome = true := by rw [hpl]; rfl
        rw [pairLoop_isSome_iff] at hsome
        have hT := pairLoop_eq_some p rest S T hpl
        have hrest := (ih T).mp hmatch
        refine ⟨?_, ?_, ?_⟩
        · intro q hq
          rcases List.mem_cons.mp hq with rfl | hq
          · exact hb
          · exact hrest.1 q hq
        · rw [List.nodup_append]
          refine ⟨hsome.1, hrest.2.1, ?_⟩
          intro s hs1 hs2
          have := (hrest.2.2 s hs2).1
          rw [hT] at this
          simp only [Finset.mem_union, List.mem_toFinset, not_or] at this
          exact this.2 hs1
        · intro s hs
          rcases List.mem_append.mp hs with hs1 | hs2
          · exact hsome.2 s hs1
          · have := hrest.2.2 s hs2
            rw [hT] at this
            simp only [Finset.mem_union, List.mem_toFinset, not_or] at this
            exact ⟨this.1.1, this.2⟩
    · rintro ⟨hb, hnd, hall⟩
      rw [List.nodup_append] at hnd
      refine ⟨hb p (by simp), ?_⟩
      have hsome : (pairLoop S p rest).isSome = true := by
        rw [pairLoop_isSome_iff]
        exact ⟨hnd.1, fun s hs => hall s (List.mem_append.mpr (Or.inl hs))⟩
      cases hpl : pairLoop S p rest with
      | none => rw [hpl] at hsome; simp at hsome
      | some T =>
        have hT := pairLoop_eq_some p rest S T hpl
        rw [ih]
        refine ⟨fun q hq => hb q (by simp [hq]), hnd.2.1, ?_⟩
        intro s hs
        have h1 := hall s (List.mem_append.mpr (Or.inr hs))
        refine ⟨?_, h1.2⟩
        rw [hT]
        simp only [Finset.mem_union, List.mem_toFinset, not_or]
        exact ⟨h1.1, fun hc => hnd.2.2 hc hs⟩

theorem isValidSolution_iff (g : Grid) (l : List Point) :
    IsValidSolution g l = true ↔
      l.length = g.size ∧ (∀ q ∈ l, IsInBounds g q = true) ∧
        (sepList l).Nodup ∧ ∀ s ∈ sepList l, s ≠ 0 := by
  unfold IsValidSolution
  rw [Bool.and_eq_true, validLoop_iff]
  simp only [decide_eq_true_eq, Finset.not_mem_empty, not_false_iff, true_and]

example : IsValidSolution ⟨3⟩ [⟨0,0⟩, ⟨1,1⟩, ⟨1,2⟩] = true := by decide

example : IsValidSolution ⟨3⟩ [⟨0,0⟩, ⟨1,1⟩, ⟨0,2⟩] = false := by decide

/-! ### The SeparationSet interface

The ordered placer is constructed with a `SeparationSetConstructor` and only
ever calls `Has`/`Add`/`Copy` on the resulting set (`Copy` is the identity in
a pure embedding).  `SepImpl` packages one implementation of that interface;
`LawfulSep` says its operations realize finite-set membership through an
abstraction function.  `sets.go`'s `mapSeparationSet` is a finite set of
naturals whose hidden iteration order varies run to run, which is why the
solver is embedded generically over the implementation. -/

structure SepImpl where
  σ : Type
  init : List Point → σ
  has : σ → Nat → Bool
  add : σ → Nat → σ

/-- The separations `NewMapSeparationSet` inserts: all pairwise separations of
the given placements. -/
def pairSeps : List Point → Finset Nat
  | [] => ∅
  | p :: rest => (rest.map (Separation p)).toFinset ∪ pairSeps rest

/-- `mapSeparationSet`, identified with the finite set of its keys. -/
def finsetSepImpl : SepImpl where
  σ := Finset Nat
  init := pairSeps
  has := fun s v => decide (v ∈ s)
  add := fun s v => insert v s

/-- `mapSeparationSet` again, but keeping the keys in an explicit list (one
possible internal ordering of the hash map). -/
def listSepImpl : SepImpl where
  σ := List Nat
  init := sepList
  has := fun s v => s.contains v
  add := fun s v => if s.contains v then s else v :: s

structure LawfulSep (I : SepImpl) (abs : I.σ → Finset Nat) : Prop where
  has_eq : ∀ s v, I.has s v = decide (v ∈ abs s)
  abs_add : ∀ s v, abs (I.add s v) = insert v (abs s)
  abs_init : ∀ l, abs (I.init l) = pairSeps l

theorem pairSeps_eq_toFinset (l : List Point) : pairSeps l = (sepList l).toFinset := by
  induction l with
  | nil => simp [pairSeps, sepList]
  | cons p rest ih => simp [pairSeps, sepList, ih]

theorem finsetSepImpl_lawful : LawfulSep finsetSepImpl id := by
  refine ⟨fun s v => rfl, fun s v => rfl, fun l => ?_⟩
  simp [finsetSepImpl, pairSeps]

theorem listSepImpl_lawful : LawfulSep listSepImpl List.toFinset := by
  refine ⟨fun s v => ?_, fun s v => ?_, fun l => ?_⟩
  · show List.contains s v = decide (v ∈ List.toFinset s)
    by_cases h : v ∈ List.toFinset s
    · rw [List.mem_toFinset] at h
      simp [h]
    · rw [List.mem_toFinset] at h
      simp [h]
  · show List.toFinset (if List.contains s v = true then s else v :: s) =
      insert v (List.toFinset s)
    by_cases h : v ∈ List.toFinset s
    · have hm := List.mem_toFinset.mp h
      rw [if_pos (by simp [hm])]
      exact (Finset.insert_eq_self.mpr h).symm
    · have hc : List.contains s v = false := by
        by_contra hcc
        rw [Bool.not_eq_false] at hcc
        exact h (List.mem_toFinset.mpr (by simpa using hcc))
      have hne : ¬(List.contains s v = true) := by
        rw [hc]
        exact Bool.false_ne_true
      rw [if_neg hne, List.toFinset_cons]
  · show List.toFinset (sepList l) = pairSeps l
    rw [pairSeps_eq_toFinset]

/-! ### The ordered stone placer (placer.go) -/

/-- `orderedStonePlacer`: grid, stones placed so far, the separation set, and
the cursor where the next placement will be attempted. -/
structure OrderedStonePlacer (σ : Type) where
  grid : Grid
  stones : List Point
  separations : σ
  nextStone : Point
deriving DecidableEq

/-- The duplicate-separation check inside `orderedStonePlacer.Place`: walk the
placed stones accumulating the separation of each to the candidate point into
a copy of the set; `none` models the error return. -/
def placeCheck (I : SepImpl) (seps : I.σ) (next : Point) : List Point → Option I.σ
  | [] => some seps
  | p :: rest =>
    let s := Separation next p
    if I.has seps s then none
    else placeCheck I (I.add seps s) next rest

/-- `orderedStonePlacer.Place`.  The first component is the receiver after the
call (its cursor is advanced by the deferred closure in both outcomes); the
second is the returned new placer, `none` modelling the error return. -/
def OrderedStonePlacer.Place (I : SepImpl) (sp : OrderedStonePlacer I.σ) :
    OrderedStonePlacer I.σ × Option (OrderedStonePlacer I.σ) :=
  match placeCheck I sp.separations sp.nextStone sp.stones with
  | none => ({ sp with nextStone := AdvanceStone sp.grid sp.nextStone }, none)
  | some separations =>
    ({ sp with nextStone := AdvanceStone sp.grid sp.nextStone },
      some ⟨sp.grid, sp.stones ++ [sp.nextStone], separations,
        AdvanceStone sp.grid sp.nextStone⟩)

/-- `orderedStonePlacer.Done`: the cursor has left the grid. -/
def OrderedStonePlacer.Done (sp : OrderedStonePlacer σ) : Bool :=
  !IsInBounds sp.grid sp.nextStone

/-- `OrderedStonePlacerProvider.New`: seed the placer with the given stones,
the cursor starting just after the last seed stone (or at the origin). -/
def OrderedStonePlacerProvider.New (I : SepImpl) (g : Grid) (p : List Point) :
    OrderedStonePlacer I.σ :=
  let nextStone := match p.getLast? with
    | none => (⟨0, 0⟩ : Point)
    | some q => AdvanceStone g q
  ⟨g, p, I.init p, nextStone⟩

/-! ### The sequential solver (solver.go) -/

/-- `EmptyStartingPoint`: a single empty placement. -/
def EmptyStartingPoint (_g : Grid) : List (List Point) :=
  [[]]

/-- `SingleOctantStartingPoints`: one stone at each cell of the first octant
(`0 ≤ i ≤ j`, `2i < size`, `2j < size`). -/
def SingleOctantStartingPoints (g : Grid) : List (List Point) :=
  ((List.range g.size).filter (fun i => decide (i * 2 < g.size))).flatMap
    (fun i =>
      (((List.range g.size).filter
          (fun j => decide (i ≤ j) && decide (j * 2 < g.size))).map
        (fun j => ([⟨i, j⟩] : List Point))))

example : SingleOctantStartingPoints ⟨4⟩ = [[⟨0,0⟩], [⟨0,1⟩], [⟨1,1⟩]] := by decide

mutual

/-- `SingleThreadedSolver.dfs`, embedded with a fuel argument (one unit per
entry); `none` is fuel exhaustion, `some none` is the `errNoSolutions` return,
`some (some t)` a found solution.  The fuel bound `2·size² + 2` is proved
sufficient below. -/
def dfsF (I : SepImpl) : Nat → OrderedStonePlacer I.σ → Option (Option (OrderedStonePlacer I.σ))
  | 0, _ => none
  | fuel + 1, sp =>
    if sp.stones.length = sp.grid.size then some (some sp)
    else loopF I fuel sp

/-- The `for !sp.Done()` loop inside `SingleThreadedSolver.dfs`. -/
def loopF (I : SepImpl) : Nat → OrderedStonePlacer I.σ → Option (Option (OrderedStonePlacer I.σ))
  | 0, _ => none
  | fuel + 1, sp =>
    if sp.Done then some none
    else
      match sp.Place I with
      | (sp2, none) => loopF I fuel sp2
      | (sp2, some child) =>
        match dfsF I fuel child with
        | none => none
        | some (some final) => some (some final)
        | some none => loopF I fuel sp2

end

/-- `SingleThreadedSolver.Solve`'s loop over the starting points: run the dfs
from each seed in order, returning the first success. -/
def solveF (I : SepImpl) (fuel : Nat) (g : Grid) : List (List Point) → Option (Option (List Point))
  | [] => some none
  | seed :: rest =>
    match dfsF I fuel (OrderedStonePlacerProvider.New I g seed) with
    | none => none
    | some (some final) => some (some final.stones)
    | some none => solveF I fuel g rest

/-- `SingleThreadedSolver.Solve` with the configured starting-points provider. -/
def Solve (I : SepImpl) (fuel : Nat) (spp : Grid → List (List Point)) (g : Grid) :
    Option (Option (List Point)) :=
  solveF I fuel g (spp g)

/-! ### Shape of a `Place` call -/

theorem Place_fst (I : SepImpl) (sp : OrderedStonePlacer I.σ) :
    (sp.Place I).1 = { sp with nextStone := AdvanceStone sp.grid sp.nextStone } := by
  unfold OrderedStonePlacer.Place
  cases placeCheck I sp.separations sp.nextStone sp.stones <;> rfl

theorem Place_snd_some (I : SepImpl) (sp child : OrderedStonePlacer I.σ)
    (h : (sp.Place I).2 = some child) :
    child.grid = sp.grid ∧ child.stones = sp.stones ++ [sp.nextStone] ∧
      child.nextStone = AdvanceStone sp.grid sp.nextStone ∧
      placeCheck I sp.separations sp.nextStone sp.stones = some child.separations := by
  unfold OrderedStonePlacer.Place at h
  cases hc : placeCheck I sp.separations sp.nextStone sp.stones with
  | none => rw [hc] at h; exact absurd h (by simp)
  | some seps =>
    rw [hc] at h
    simp only [Option.some.injEq] at h
    subst h
    exact ⟨rfl, rfl, rfl, rfl⟩

theorem Place_snd_isSome (I : SepImpl) (sp : OrderedStonePlacer I.σ) :
    (sp.Place I).2.isSome = (placeCheck I sp.separations sp.nextStone sp.stones).isSome := by
  unfold OrderedStonePlacer.Place
  cases placeCheck I sp.separations sp.nextStone sp.stones <;> rfl

/-! ### Characterizing the duplicate-separation check -/

theorem placeCheck_isSome_iff {I : SepImpl} {abs : I.σ → Finset Nat}
    (hL : LawfulSep I abs) (next : Point) (l : List Point) (s : I.σ) :
    (placeCheck I s next l).isSome = true ↔
      (l.map (Separation next)).Nodup ∧ ∀ v ∈ l.map (Separation next), v ∉ abs s := by
  induction l generalizing s with
  | nil => simp [placeCheck]
  | cons p rest ih =>
    by_cases hm : Separation next p ∈ abs s
    · have : I.has s (Separation next p) = true := by
        rw [hL.has_eq]
        simpa using hm
      simp only [placeCheck, this, if_true]
      simp only [Option.isSome_none, List.map_cons, List.nodup_cons, List.mem_cons]
      constructor
      · intro h
        exact absurd h (by simp)
      · rintro ⟨-, hall⟩
        exact absurd hm (hall _ (Or.inl rfl))
    · have : I.has s (Separation next p) = false := by
        rw [hL.has_eq]
        simpa using hm
      simp only [placeCheck, this, Bool.false_eq_true, if_false]
      rw [ih]
      simp only [hL.abs_add, List.map_cons, List.nodup_cons, List.mem_cons]
      constructor
      · rintro ⟨hnd, hall⟩
        refine ⟨⟨fun hmem => (hall _ hmem) (Finset.mem_insert_self _ _), hnd⟩, ?_⟩
        rintro v (rfl | hmem)
        · exact hm
        · exact fun hv => (hall _ hmem) (Finset.mem_insert_of_mem hv)
      · rintro ⟨⟨hnotin, hnd⟩, hall⟩
        refine ⟨hnd, fun v hmem hv => ?_⟩
        rcases Finset.mem_insert.mp hv with rfl | hv
        · exact hnotin hmem
        · exact hall v (Or.inr hmem) hv

theorem placeCheck_eq_some {I : SepImpl} {abs : I.σ → Finset Nat}
    (hL : LawfulSep I abs) (next : Point) (l : List Point) (s t : I.σ)
    (h : placeCheck I s next l = some t) :
    abs t = abs s ∪ (l.map (Separation next)).toFinset := by
  induction l generalizing s with
  | nil =>
    simp only [placeCheck, Option.some.injEq] at h
    subst h
    simp
  | cons p rest ih =>
    by_cases hb : I.has s (Separation next p) = true
    · simp [placeCheck, hb] at h
    · rw [Bool.not_eq_true] at hb
      simp only [placeCheck, hb, Bool.false_eq_true, if_false] at h
      have := ih _ h
      rw [this, hL.abs_add]
      ext v
      simp only [Finset.mem_union, Finset.mem_insert, List.map_cons,
        List.toFinset_cons, List.mem_toFinset]
      tauto

theorem placeCheck_none {I : SepImpl} {abs : I.σ → Finset Nat}
    (hL : LawfulSep I abs) (next : Point) (l : List Point) (s0 : I.σ) :
    ∀ acc : I.σ, abs s0 ⊆ abs acc → (∃ p ∈ l, Separation next p ∈ abs s0) →
      placeCheck I acc next l = none := by
  induction l with
  | nil =>
    rintro acc hsub ⟨p, hp, -⟩
    exact absurd hp (by simp)
  | cons p rest ih =>
    rintro acc hsub ⟨q, hq, hmem⟩
    by_cases hb : I.has acc (Separation next p) = true
    · simp [placeCheck, hb]
    · rw [Bool.not_eq_true] at hb
      have hnotin : Separation next p ∉ abs acc := by
        rw [hL.has_eq] at hb
        simpa using hb
      simp only [placeCheck, hb, Bool.false_eq_true, if_false]
      rcases List.mem_cons.mp hq with rfl | hq2
      · exact absurd (hsub hmem) hnotin
      · refine ih _ (fun v hv => ?_) ⟨q, hq2, hmem⟩
        rw [hL.abs_add]
        exact Finset.mem_insert_of_mem (hsub hv)

/-! ### Pairwise separations of an extended placement -/

theorem sepList_append_single (l : List Point) (c : Point) :
    List.Perm (sepList (l ++ [c])) (l.map (fun q => Separation q c) ++ sepList l) := by
  induction l with
  | nil => simp [sepList]
  | cons p l2 ih =>
    simp only [List.cons_append, sepList, List.map_cons, List.map_append, List.map_nil,
      List.append_eq, List.nil_append, List.map]
    rw [List.append_assoc]
    refine List.Perm.trans (List.Perm.append_left _ (List.Perm.append_left _ ih)) ?_
    refine List.Perm.trans List.perm_middle ?_
    refine List.Perm.cons _ ?_
    simp only [List.append_eq, List.nil_append]
    rw [← List.append_assoc, ← List.append_assoc]
    exact List.Perm.append_right _ List.perm_append_comm

theorem map_separation_comm (c : Point) (l : List Point) :
    l.map (Separation c) = l.map (fun q => Separation q c) :=
  List.map_congr_left (fun q _ => Separation.comm c q)

theorem perm_toFinset {l l2 : List Nat} (h : List.Perm l l2) : l.toFinset = l2.toFinset := by
  ext x
  simp [h.mem_iff]

theorem sepList_ne_zero {l : List Point}
    (hp : l.Pairwise (fun a b => LessThan a b = true)) :
    ∀ s ∈ sepList l, s ≠ 0 := by
  induction l with
  | nil => simp [sepList]
  | cons p rest ih =>
    intro s hs
    simp only [sepList] at hs
    rcases List.mem_append.mp hs with h1 | h2
    · obtain ⟨q, hq, rfl⟩ := List.mem_map.mp h1
      have hlt := (List.pairwise_cons.mp hp).1 q hq
      intro h0
      exact lessThan_ne hlt ((Separation.eq_zero_iff p q).mp h0)
    · exact ih hp.of_cons s h2

/-! ### The placer invariant and its preservation -/

/-- Invariant of the ordered placer: stones strictly increasing in row-major
order, all before the cursor, with pairwise-distinct separations that the
separation set records exactly. -/
def OrdInv (I : SepImpl) (abs : I.σ → Finset Nat) (sp : OrderedStonePlacer I.σ) : Prop :=
  sp.stones.Pairwise (fun a b => LessThan a b = true) ∧
  (∀ q ∈ sp.stones, LessThan q sp.nextStone = true) ∧
  (sepList sp.stones).Nodup ∧
  abs sp.separations = (sepList sp.stones).toFinset

theorem OrdInv_place_fst {I : SepImpl} {abs : I.σ → Finset Nat}
    (sp : OrderedStonePlacer I.σ) (h : OrdInv I abs sp) :
    OrdInv I abs (sp.Place I).1 := by
  rw [Place_fst]
  exact ⟨h.1, fun q hq =>
    lessThan_trans (h.2.1 q hq) (lessThan_advanceStone sp.grid sp.nextStone),
    h.2.2.1, h.2.2.2⟩

theorem OrdInv_place_child {I : SepImpl} {abs : I.σ → Finset Nat}
    (hL : LawfulSep I abs) (sp child : OrderedStonePlacer I.σ)
    (h : OrdInv I abs sp) (hc : (sp.Place I).2 = some child) :
    OrdInv I abs child ∧ child.stones = sp.stones ++ [sp.nextStone] ∧
      child.grid = sp.grid := by
  obtain ⟨hg, hs, hn, hpc⟩ := Place_snd_some I sp child hc
  have hsome : (placeCheck I sp.separations sp.nextStone sp.stones).isSome = true := by
    rw [hpc]
    rfl
  rw [placeCheck_isSome_iff hL] at hsome
  obtain ⟨hndNew, hfresh⟩ := hsome
  refine ⟨⟨?_, ?_, ?_, ?_⟩, hs, hg⟩
  · rw [hs, List.pairwise_append]
    refine ⟨h.1, List.pairwise_singleton _ _, ?_⟩
    intro a ha b hb
    rcases List.mem_singleton.mp hb with rfl
    exact h.2.1 a ha
  · rw [hs, hn]
    intro q hq
    rcases List.mem_append.mp hq with hq1 | hq2
    · exact lessThan_trans (h.2.1 q hq1) (lessThan_advanceStone sp.grid sp.nextStone)
    · rcases List.mem_singleton.mp hq2 with rfl
      exact lessThan_advanceStone sp.grid sp.nextStone
  · rw [hs]
    rw [(sepList_append_single sp.stones sp.nextStone).nodup_iff]
    rw [List.nodup_append]
    refine ⟨?_, h.2.2.1, ?_⟩
    · rw [← map_separation_comm]
      exact hndNew
    · intro v hv
      rw [← map_separation_comm] at hv
      have := hfresh v hv
      rw [h.2.2.2] at this
      intro hmem
      exact this (List.mem_toFinset.mpr hmem)
  · have habs := placeCheck_eq_some hL sp.nextStone sp.stones _ _ hpc
    rw [hs, habs, h.2.2.2, perm_toFinset (sepList_append_single sp.stones sp.nextStone),
      List.toFinset_append, ← map_separation_comm]
    exact Finset.union_comm _ _

/-! ### Soundness of the depth-first search -/

theorem dfsF_loopF_sound {I : SepImpl} {abs : I.σ → Finset Nat}
    (hL : LawfulSep I abs) :
    ∀ fuel : Nat,
      (∀ sp t : OrderedStonePlacer I.σ,
        OrdInv I abs sp → (∀ q ∈ sp.stones, IsInBounds sp.grid q = true) →
        dfsF I fuel sp = some (some t) →
        OrdInv I abs t ∧ (∀ q ∈ t.stones, IsInBounds t.grid q = true) ∧
          t.grid = sp.grid ∧ t.stones.length = sp.grid.size) ∧
      (∀ sp t : OrderedStonePlacer I.σ,
        OrdInv I abs sp → (∀ q ∈ sp.stones, IsInBounds sp.grid q = true) →
        loopF I fuel sp = some (some t) →
        OrdInv I abs t ∧ (∀ q ∈ t.stones, IsInBounds t.grid q = true) ∧
          t.grid = sp.grid ∧ t.stones.length = sp.grid.size) := by
  intro fuel
  induction fuel with
  | zero =>
    constructor <;> intro sp t h1 h2 h3 <;> simp [dfsF, loopF] at h3
  | succ fuel ih =>
    constructor
    · intro sp t h1 h2 h3
      rw [dfsF] at h3
      by_cases hlen : sp.stones.length = sp.grid.size
      · rw [if_pos hlen] at h3
        simp only [Option.some.injEq] at h3
        subst h3
        exact ⟨h1, h2, rfl, hlen⟩
      · rw [if_neg hlen] at h3
        exact ih.2 sp t h1 h2 h3
    · intro sp t h1 h2 h3
      rw [loopF] at h3
      by_cases hd : sp.Done = true
      · rw [if_pos hd] at h3
        simp at h3
      · rw [if_neg hd] at h3
        have hin : IsInBounds sp.grid sp.nextStone = true := by
          unfold OrderedStonePlacer.Done at hd
          simpa using hd
        have hfst := Place_fst I sp
        rcases hpp : sp.Place I with ⟨sp2, res⟩
        have e1 : sp2 = (sp.Place I).1 := by rw [hpp]
        have hOrd2 : OrdInv I abs sp2 := by
          rw [e1]
          exact OrdInv_place_fst sp h1
        have hB2 : ∀ q ∈ sp2.stones, IsInBounds sp2.grid q = true := by
          rw [e1, hfst]
          exact h2
        have hG2 : sp2.grid = sp.grid := by
          rw [e1, hfst]
        rw [hpp] at h3
        cases res with
        | none =>
          have h3x : loopF I fuel sp2 = some (some t) := h3
          have := ih.2 sp2 t hOrd2 hB2 h3x
          rw [hG2] at this
          exact this
        | some child =>
          have hchild : (sp.Place I).2 = some child := by
            rw [hpp]
          obtain ⟨hcInv, hcStones, hcGrid⟩ := OrdInv_place_child hL sp child h1 hchild
          have hcB : ∀ q ∈ child.stones, IsInBounds child.grid q = true := by
            rw [hcStones, hcGrid]
            intro q hq
            rcases List.mem_append.mp hq with hq1 | hq2
            · exact h2 q hq1
            · rcases List.mem_singleton.mp hq2 with rfl
              exact hin
          have h3x : (match dfsF I fuel child with
              | none => none
              | some (some final) => some (some final)
              | some none => loopF I fuel sp2) = some (some t) := h3
          cases hdd : dfsF I fuel child with
          | none =>
            rw [hdd] at h3x
            simp at h3x
          | some r =>
            rw [hdd] at h3x
            cases r with
            | none =>
              have h3y : loopF I fuel sp2 = some (some t) := h3x
              have := ih.2 sp2 t hOrd2 hB2 h3y
              rw [hG2] at this
              exact this
            | some final =>
              have h3y : final = t := by
                simpa using h3x
              subst h3y
              have := ih.1 child final hcInv hcB hdd
              rw [hcGrid] at this
              exact this

/-! ### Invariant of freshly constructed placers -/

theorem pairwise_all_le_getLast {l : List Point} {q : Point}
    (h : l.getLast? = some q)
    (hp : l.Pairwise (fun a b => LessThan a b = true)) :
    ∀ r ∈ l, r = q ∨ LessThan r q = true := by
  induction l with
  | nil => simp at h
  | cons a l2 ih =>
    cases l2 with
    | nil =>
      simp only [List.getLast?_singleton, Option.some.injEq] at h
      subst h
      intro r hr
      rcases List.mem_singleton.mp hr with rfl
      exact Or.inl rfl
    | cons b l3 =>
      rw [List.getLast?_cons_cons] at h
      have hq := ih h hp.of_cons
      intro r hr
      rcases List.mem_cons.mp hr with rfl | hr2
      · have hqmem : q ∈ b :: l3 := by
          obtain ⟨hne, rfl⟩ :=
            List.mem_getLast?_eq_getLast (Option.mem_def.mpr h)
          exact List.getLast_mem hne
        exact Or.inr ((List.pairwise_cons.mp hp).1 q hqmem)
      · exact hq r hr2

theorem New_ordInv {I : SepImpl} {abs : I.σ → Finset Nat} (hL : LawfulSep I abs)
    (g : Grid) (p : List Point)
    (hp : p.Pairwise (fun a b => LessThan a b = true))
    (hnd : (sepList p).Nodup) :
    OrdInv I abs (OrderedStonePlacerProvider.New I g p) := by
  refine ⟨hp, ?_, hnd, by
    show abs (I.init p) = (sepList p).toFinset
    rw [hL.abs_init, pairSeps_eq_toFinset]⟩
  show ∀ q ∈ p, LessThan q (match p.getLast? with
    | none => (⟨0, 0⟩ : Point)
    | some q => AdvanceStone g q) = true
  cases hgl : p.getLast? with
  | none =>
    have : p = [] := by
      cases p with
      | nil => rfl
      | cons a l =>
        exfalso
        have hs : ((a :: l).getLast?).isSome = true := by
          rw [List.getLast?_isSome]
          simp
        rw [hgl] at hs
        simp at hs
    subst this
    intro q hq
    simp at hq
  | some q =>
    intro r hr
    rcases pairwise_all_le_getLast hgl hp r hr with rfl | hlt
    · exact lessThan_advanceStone g r
    · exact lessThan_trans hlt (lessThan_advanceStone g q)

/-! ### Soundness of `Solve` -/

theorem solveF_sound {I : SepImpl} {abs : I.σ → Finset Nat} (hL : LawfulSep I abs)
    (fuel : Nat) (g : Grid) (ps : List Point) :
    ∀ seeds : List (List Point),
      (∀ seed ∈ seeds, seed.Pairwise (fun a b => LessThan a b = true) ∧
        (sepList seed).Nodup ∧ ∀ q ∈ seed, IsInBounds g q = true) →
      solveF I fuel g seeds = some (some ps) →
      ps.length = g.size ∧ IsValidSolution g ps = true := by
  intro seeds
  induction seeds with
  | nil =>
    intro _ h
    simp [solveF] at h
  | cons seed rest ih =>
    intro hall h
    rw [solveF] at h
    cases hd : dfsF I fuel (OrderedStonePlacerProvider.New I g seed) with
    | none =>
      rw [hd] at h
      simp at h
    | some r =>
      rw [hd] at h
      cases r with
      | none =>
        have hx : solveF I fuel g rest = some (some ps) := h
        exact ih (fun s hs => hall s (List.mem_cons_of_mem _ hs)) hx
      | some final =>
        have hps : final.stones = ps := by
          simpa using h
        have hseed := hall seed (List.mem_cons_self _ _)
        have hNew := New_ordInv hL g seed hseed.1 hseed.2.1
        have hNewB : ∀ q ∈ (OrderedStonePlacerProvider.New I g seed).stones,
            IsInBounds (OrderedStonePlacerProvider.New I g seed).grid q = true := by
          intro q hq
          exact hseed.2.2 q hq
        have hres := (dfsF_loopF_sound hL fuel).1 _ final hNew hNewB hd
        have hgr : (OrderedStonePlacerProvider.New I g seed).grid = g := rfl
        rw [hgr] at hres
        subst hps
        refine ⟨hres.2.2.2, ?_⟩
        rw [isValidSolution_iff]
        refine ⟨hres.2.2.2, ?_, hres.1.2.2.1, sepList_ne_zero hres.1.1⟩
        intro q hq
        have := hres.2.1 q hq
        rw [hres.2.2.1] at this
        exact this

theorem octant_seed_shape (g : Grid) (seed : List Point)
    (h : seed ∈ SingleOctantStartingPoints g) :
    ∃ i j : Nat, seed = [⟨i, j⟩] ∧ i * 2 < g.size ∧ j * 2 < g.size ∧ i ≤ j := by
  unfold SingleOctantStartingPoints at h
  rw [List.mem_flatMap] at h
  obtain ⟨i, hi, hmem⟩ := h
  rw [List.mem_filter] at hi
  rw [List.mem_map] at hmem
  obtain ⟨j, hj, rfl⟩ := hmem
  rw [List.mem_filter] at hj
  refine ⟨i, j, rfl, ?_, ?_, ?_⟩
  · simpa using hi.2
  · have := hj.2
    simp only [Bool.and_eq_true, decide_eq_true_eq] at this
    exact this.2
  · have := hj.2
    simp only [Bool.and_eq_true, decide_eq_true_eq] at this
    exact this.1

/-- C1.  For every grid `g` with `1 ≤ g.Size ≤ 14`, whenever the sequential
solver (`SingleThreadedSolver.Solve` with the map-based separation set and
either standard starting-points provider) returns without an error, the
returned `Placements` has length `g.Size` and passes `IsValidSolution`:
every point in bounds, no two points coincident, all pairwise squared
separations distinct.  The fuel argument makes the embedded recursion total;
the statement holds for every fuel value. -/
theorem C1_sequential_solve_valid (g : Grid) (h1 : 1 ≤ g.size) (h2 : g.size ≤ 14)
    (fuel : Nat) (ps : List Point)
    (h : Solve finsetSepImpl fuel SingleOctantStartingPoints g = some (some ps) ∨
         Solve finsetSepImpl fuel EmptyStartingPoint g = some (some ps)) :
    ps.length = g.size ∧ IsValidSolution g ps = true := by
  rcases h with h | h
  · refine solveF_sound finsetSepImpl_lawful fuel g ps _ ?_ h
    intro seed hseed
    obtain ⟨i, j, rfl, hi, hj, hij⟩ := octant_seed_shape g seed hseed
    refine ⟨List.pairwise_singleton _ _, by simp [sepList], ?_⟩
    intro q hq
    rcases List.mem_singleton.mp hq with rfl
    simp only [IsInBounds, Bool.and_eq_true, decide_eq_true_eq]
    omega
  · refine solveF_sound finsetSepImpl_lawful fuel g ps _ ?_ h
    intro seed hseed
    rcases List.mem_singleton.mp hseed with rfl
    exact ⟨List.Pairwise.nil, by simp [sepList], by simp⟩

/-- Witness for C1 at the 3×3 grid: the solver run finds
`[A0, A1, B2]` and the theorem certifies it valid. -/
theorem C1_witness :
    ([⟨0,0⟩, ⟨0,1⟩, ⟨1,2⟩] : List Point).length = (⟨3⟩ : Grid).size ∧
      IsValidSolution ⟨3⟩ [⟨0,0⟩, ⟨0,1⟩, ⟨1,2⟩] = true :=
  C1_sequential_solve_valid ⟨3⟩ (by decide) (by decide) 20 _ (Or.inl (by decide))

/-! ### Cursor progress and termination of the search (C6) -/

/-- Row-major index of a cell on a grid. -/
def cellIndex (g : Grid) (p : Point) : Nat :=
  p.row * g.size + p.col

/-- Iterating the receiver side of `Place` (the cursor advance every call
performs, successful or not). -/
def placeIter (I : SepImpl) : Nat → OrderedStonePlacer I.σ → OrderedStonePlacer I.σ
  | 0, sp => sp
  | k + 1, sp => placeIter I k (sp.Place I).1

theorem cellIndex_lt (g : Grid) (p : Point) (h : IsInBounds g p = true) :
    cellIndex g p < g.size * g.size := by
  simp only [IsInBounds, Bool.and_eq_true, decide_eq_true_eq] at h
  unfold cellIndex
  calc p.row * g.size + p.col < p.row * g.size + g.size := by omega
    _ = (p.row + 1) * g.size := by rw [Nat.succ_mul]
    _ ≤ g.size * g.size := Nat.mul_le_mul_right _ h.1

theorem cellIndex_advance (g : Grid) (p : Point) (h : IsInBounds g p = true) :
    cellIndex g (AdvanceStone g p) = cellIndex g p + 1 := by
  simp only [IsInBounds, Bool.and_eq_true, decide_eq_true_eq] at h
  unfold AdvanceStone cellIndex
  by_cases hc : p.col + 1 = g.size
  · rw [if_pos hc]
    simp only
    rw [Nat.succ_mul]
    omega
  · rw [if_neg hc]
    simp only
    omega

theorem inBounds_advance_false (g : Grid) (p : Point) (h : IsInBounds g p = false) :
    IsInBounds g (AdvanceStone g p) = false := by
  simp only [IsInBounds, Bool.and_eq_true, decide_eq_true_eq] at h ⊢
  unfold AdvanceStone
  rw [Bool.and_eq_false_iff] at h ⊢
  simp only [decide_eq_false_iff_not] at h ⊢
  by_cases hc : p.col + 1 = g.size
  · rw [if_pos hc]
    simp only
    omega
  · rw [if_neg hc]
    simp only
    omega

theorem placeIter_done (I : SepImpl) :
    ∀ (k : Nat) (sp : OrderedStonePlacer I.σ),
      (sp.Done = true ∨ sp.grid.size * sp.grid.size - cellIndex sp.grid sp.nextStone ≤ k) →
      (placeIter I k sp).Done = true := by
  intro k
  induction k with
  | zero =>
    intro sp h
    rcases h with h | h
    · exact h
    · show sp.Done = true
      unfold OrderedStonePlacer.Done
      rw [Bool.not_eq_true']
      by_contra hin
      rw [Bool.not_eq_false] at hin
      have := cellIndex_lt sp.grid sp.nextStone hin
      omega
  | succ k ih =>
    intro sp h
    show (placeIter I k (sp.Place I).1).Done = true
    by_cases hd : sp.Done = true
    · refine ih _ (Or.inl ?_)
      rw [Place_fst]
      unfold OrderedStonePlacer.Done at hd ⊢
      rw [Bool.not_eq_true'] at hd
      simp only
      rw [Bool.not_eq_true']
      exact inBounds_advance_false sp.grid sp.nextStone hd
    · have hin : IsInBounds sp.grid sp.nextStone = true := by
        unfold OrderedStonePlacer.Done at hd
        simpa using hd
      have hidx : sp.grid.size * sp.grid.size - cellIndex sp.grid sp.nextStone ≤ k + 1 := by
        rcases h with h | h
        · exact absurd h hd
        · exact h
      refine ih _ ?_
      rw [Place_fst]
      by_cases hin2 : IsInBounds sp.grid (AdvanceStone sp.grid sp.nextStone) = true
      · refine Or.inr ?_
        simp only
        rw [cellIndex_advance sp.grid sp.nextStone hin]
        omega
      · refine Or.inl ?_
        unfold OrderedStonePlacer.Done
        simp only
        rw [Bool.not_eq_true']
        exact Bool.not_eq_true _ ▸ (Bool.eq_false_iff.mpr hin2)

/-- Cells the search has yet to visit at this placer state. -/
def remCells (sp : OrderedStonePlacer σ) : Nat :=
  if IsInBounds sp.grid sp.nextStone = true then
    sp.grid.size * sp.grid.size - cellIndex sp.grid sp.nextStone
  else 0

theorem remCells_place (I : SepImpl) (sp : OrderedStonePlacer I.σ)
    (h : IsInBounds sp.grid sp.nextStone = true) :
    remCells (sp.Place I).1 ≤ remCells sp - 1 ∧ 1 ≤ remCells sp := by
  have hlt := cellIndex_lt sp.grid sp.nextStone h
  constructor
  · rw [Place_fst]
    unfold remCells
    simp only [h, if_true]
    by_cases hin2 : IsInBounds sp.grid (AdvanceStone sp.grid sp.nextStone) = true
    · rw [if_pos hin2, cellIndex_advance sp.grid sp.nextStone h]
      omega
    · rw [if_neg hin2]
      omega
  · unfold remCells
    rw [if_pos h]
    omega

theorem dfsF_loopF_fuel (I : SepImpl) :
    ∀ fuel : Nat,
      (∀ sp : OrderedStonePlacer I.σ, 2 * remCells sp + 2 ≤ fuel → dfsF I fuel sp ≠ none) ∧
      (∀ sp : OrderedStonePlacer I.σ, 2 * remCells sp + 1 ≤ fuel → loopF I fuel sp ≠ none) := by
  intro fuel
  induction fuel with
  | zero =>
    constructor <;> intro sp h <;> omega
  | succ fuel ih =>
    constructor
    · intro sp h
      rw [dfsF]
      by_cases hlen : sp.stones.length = sp.grid.size
      · rw [if_pos hlen]
        simp
      · rw [if_neg hlen]
        exact ih.2 sp (by omega)
    · intro sp h
      rw [loopF]
      by_cases hd : sp.Done = true
      · rw [if_pos hd]
        simp
      · rw [if_neg hd]
        have hin : IsInBounds sp.grid sp.nextStone = true := by
          unfold OrderedStonePlacer.Done at hd
          simpa using hd
        obtain ⟨hdec, hone⟩ := remCells_place I sp hin
        rcases hpp : sp.Place I with ⟨sp2, res⟩
        have e1 : sp2 = (sp.Place I).1 := by rw [hpp]
        have hrem2 : remCells sp2 ≤ remCells sp - 1 := by
          rw [e1]
          exact hdec
        cases res with
        | none =>
          exact ih.2 sp2 (by omega)
        | some child =>
          have hcs : child.nextStone = AdvanceStone sp.grid sp.nextStone ∧
              child.grid = sp.grid := by
            have hc2 : (sp.Place I).2 = some child := by rw [hpp]
            obtain ⟨hg, -, hn, -⟩ := Place_snd_some I sp child hc2
            exact ⟨hn, hg⟩
          have hremc : remCells child = remCells sp2 := by
            rw [e1, Place_fst]
            unfold remCells
            rw [hcs.1, hcs.2]
          have hdfs := ih.1 child (by omega)
          cases hdd : dfsF I fuel child with
          | none => exact absurd hdd hdfs
          | some r =>
            cases r with
            | none =>
              have hl := ih.2 sp2 (by omega)
              intro hcon
              have hx : (match dfsF I fuel child with
                  | none => none
                  | some (some final) => some (some final)
                  | some none => loopF I fuel sp2) = none := hcon
              rw [hdd] at hx
              exact hl hx
            | some final =>
              intro hcon
              have hx : (match dfsF I fuel child with
                  | none => none
                  | some (some final) => some (some final)
                  | some none => loopF I fuel sp2) = none := hcon
              rw [hdd] at hx
              simp at hx

/-- C6.  Every `Place()` call on the ordered placer, successful or not,
advances the receiver's cursor by exactly one cell in row-major order and
changes nothing else of the receiver; consequently, from any state of a grid
of side N, after at most N·N calls `Done()` returns true, and the solver's
DFS loop terminates — fuel `2·N·N + 2` never runs out. -/
theorem C6_place_advances_and_search_terminates (I : SepImpl) :
    (∀ sp : OrderedStonePlacer I.σ,
      (sp.Place I).1.nextStone = AdvanceStone sp.grid sp.nextStone ∧
      (sp.Place I).1.stones = sp.stones ∧
      (sp.Place I).1.grid = sp.grid ∧
      (sp.Place I).1.separations = sp.separations) ∧
    (∀ sp : OrderedStonePlacer I.σ,
      (placeIter I (sp.grid.size * sp.grid.size) sp).Done = true) ∧
    (∀ (fuel : Nat) (sp : OrderedStonePlacer I.σ),
      2 * (sp.grid.size * sp.grid.size) + 2 ≤ fuel → dfsF I fuel sp ≠ none) := by
  refine ⟨?_, ?_, ?_⟩
  · intro sp
    rw [Place_fst]
    exact ⟨rfl, rfl, rfl, rfl⟩
  · intro sp
    refine placeIter_done I _ sp (Or.inr ?_)
    omega
  · intro fuel sp h
    refine (dfsF_loopF_fuel I fuel).1 sp ?_
    have : remCells sp ≤ sp.grid.size * sp.grid.size := by
      unfold remCells
      by_cases hin : IsInBounds sp.grid sp.nextStone = true
      · rw [if_pos hin]
        omega
      · rw [if_neg hin]
        omega
    omega

/-- Witness for C6: the fuel part applied at a concrete 3×3 placer state. -/
theorem C6_witness :
    2 * ((⟨3⟩ : Grid).size * (⟨3⟩ : Grid).size) + 2 ≤ 20 ∧
      dfsF finsetSepImpl 20
        (⟨⟨3⟩, [⟨0,0⟩], pairSeps [⟨0,0⟩], ⟨0,1⟩⟩ : OrderedStonePlacer finsetSepImpl.σ) ≠
          none :=
  ⟨by decide,
    (C6_place_advances_and_search_terminates finsetSepImpl).2.2 20
      ⟨⟨3⟩, [⟨0,0⟩], pairSeps [⟨0,0⟩], ⟨0,1⟩⟩ (by decide)⟩

/-! ### Reachable placer states and the canonical ordering (C4) -/

/-- States reachable from a freshly constructed placer by `Place()` calls:
the constructor's output, the receiver after any call, and the new placer
returned by a successful call. -/
inductive ReachableOSP (I : SepImpl) (g : Grid) (seed : List Point) :
    OrderedStonePlacer I.σ → Prop
  | base : ReachableOSP I g seed (OrderedStonePlacerProvider.New I g seed)
  | step : ∀ sp, ReachableOSP I g seed sp → ReachableOSP I g seed (sp.Place I).1
  | child : ∀ sp c, ReachableOSP I g seed sp → (sp.Place I).2 = some c →
      ReachableOSP I g seed c

theorem newPlacer_cursor_after (I : SepImpl) (g : Grid) (p : List Point)
    (hp : p.Pairwise (fun a b => LessThan a b = true)) :
    ∀ q ∈ p, LessThan q (OrderedStonePlacerProvider.New I g p).nextStone = true := by
  show ∀ q ∈ p, LessThan q (match p.getLast? with
    | none => (⟨0, 0⟩ : Point)
    | some q => AdvanceStone g q) = true
  cases hgl : p.getLast? with
  | none =>
    intro q hq
    exfalso
    cases p with
    | nil => simp at hq
    | cons a l =>
      have hs : ((a :: l).getLast?).isSome = true := by
        rw [List.getLast?_isSome]
        simp
      rw [hgl] at hs
      simp at hs
  | some q =>
    intro r hr
    rcases pairwise_all_le_getLast hgl hp r hr with rfl | hlt
    · exact lessThan_advanceStone g r
    · exact lessThan_trans hlt (lessThan_advanceStone g q)

/-- C4.  Invariant of the ordered placer: in every state reachable from a
(sorted) seed by `Place()` calls, the placed stones are strictly increasing in
row-major order and all lie strictly before the cursor; hence every successful
call appends a point strictly later than the most recently placed one — the
placer never places a point at or before it. -/
theorem C4_canonical_ordering (I : SepImpl) (g : Grid) (seed : List Point)
    (hseed : seed.Pairwise (fun a b => LessThan a b = true))
    (sp : OrderedStonePlacer I.σ) (hr : ReachableOSP I g seed sp) :
    sp.stones.Pairwise (fun a b => LessThan a b = true) ∧
    (∀ q ∈ sp.stones, LessThan q sp.nextStone = true) ∧
    (∀ c, (sp.Place I).2 = some c →
      c.stones = sp.stones ++ [sp.nextStone] ∧
        ∀ q ∈ sp.stones, LessThan q sp.nextStone = true) := by
  have main : sp.stones.Pairwise (fun a b => LessThan a b = true) ∧
      ∀ q ∈ sp.stones, LessThan q sp.nextStone = true := by
    induction hr with
    | base => exact ⟨hseed, newPlacer_cursor_after I g seed hseed⟩
    | step sp2 _ ih =>
      rw [Place_fst]
      exact ⟨ih.1, fun q hq =>
        lessThan_trans (ih.2 q hq) (lessThan_advanceStone sp2.grid sp2.nextStone)⟩
    | child sp2 c _ hc ih =>
      obtain ⟨-, hs, hn, -⟩ := Place_snd_some I sp2 c hc
      constructor
      · rw [hs, List.pairwise_append]
        refine ⟨ih.1, List.pairwise_singleton _ _, ?_⟩
        intro a ha b hb
        rcases List.mem_singleton.mp hb with rfl
        exact ih.2 a ha
      · rw [hs, hn]
        intro q hq
        rcases List.mem_append.mp hq with hq1 | hq2
        · exact lessThan_trans (ih.2 q hq1)
            (lessThan_advanceStone sp2.grid sp2.nextStone)
        · rcases List.mem_singleton.mp hq2 with rfl
          exact lessThan_advanceStone sp2.grid sp2.nextStone
  refine ⟨main.1, main.2, fun c hc => ?_⟩
  obtain ⟨-, hs, -, -⟩ := Place_snd_some I sp c hc
  exact ⟨hs, main.2⟩

/-- Witness for C4 at a freshly constructed 3×3 placer. -/
theorem C4_witness :
    (([⟨1,1⟩] : List Point).Pairwise (fun a b => LessThan a b = true)) ∧
      ((OrderedStonePlacerProvider.New finsetSepImpl ⟨3⟩ [⟨1,1⟩]).stones.Pairwise
        (fun a b => LessThan a b = true) ∧
      (∀ q ∈ (OrderedStonePlacerProvider.New finsetSepImpl ⟨3⟩ [⟨1,1⟩]).stones,
        LessThan q (OrderedStonePlacerProvider.New finsetSepImpl ⟨3⟩ [⟨1,1⟩]).nextStone = true) ∧
      (∀ c, ((OrderedStonePlacerProvider.New finsetSepImpl ⟨3⟩ [⟨1,1⟩]).Place finsetSepImpl).2 =
            some c →
        c.stones = (OrderedStonePlacerProvider.New finsetSepImpl ⟨3⟩ [⟨1,1⟩]).stones ++
            [(OrderedStonePlacerProvider.New finsetSepImpl ⟨3⟩ [⟨1,1⟩]).nextStone] ∧
          ∀ q ∈ (OrderedStonePlacerProvider.New finsetSepImpl ⟨3⟩ [⟨1,1⟩]).stones,
            LessThan q (OrderedStonePlacerProvider.New finsetSepImpl ⟨3⟩ [⟨1,1⟩]).nextStone = true)) :=
  ⟨by decide,
    C4_canonical_ordering finsetSepImpl ⟨3⟩ [⟨1,1⟩] (by decide) _ ReachableOSP.base⟩

/-! ### Determinism of the sequential solver (C7)

The sequential solver has exactly one source of hidden, run-to-run-varying
state: the internal representation of its `SeparationSet` (the iteration
order of Go's hash map).  Determinism is therefore stated as: two runs whose
separation sets realize the same membership semantics — in whatever internal
state — produce identical results. -/

def OSPRel (I1 I2 : SepImpl) (abs1 : I1.σ → Finset Nat) (abs2 : I2.σ → Finset Nat)
    (sp1 : OrderedStonePlacer I1.σ) (sp2 : OrderedStonePlacer I2.σ) : Prop :=
  sp1.grid = sp2.grid ∧ sp1.stones = sp2.stones ∧ sp1.nextStone = sp2.nextStone ∧
    abs1 sp1.separations = abs2 sp2.separations

theorem placeCheck_bisim {I1 I2 : SepImpl} {abs1 : I1.σ → Finset Nat}
    {abs2 : I2.σ → Finset Nat} (hL1 : LawfulSep I1 abs1) (hL2 : LawfulSep I2 abs2)
    (next : Point) (l : List Point) :
    ∀ (s1 : I1.σ) (s2 : I2.σ), abs1 s1 = abs2 s2 →
      (placeCheck I1 s1 next l).map abs1 = (placeCheck I2 s2 next l).map abs2 := by
  induction l with
  | nil =>
    intro s1 s2 h
    simp [placeCheck, h]
  | cons p rest ih =>
    intro s1 s2 h
    have hhas : I1.has s1 (Separation next p) = I2.has s2 (Separation next p) := by
      rw [hL1.has_eq, hL2.has_eq, h]
    simp only [placeCheck, hhas]
    by_cases hb : I2.has s2 (Separation next p) = true
    · rw [if_pos hb, if_pos hb]
      rfl
    · rw [if_neg hb, if_neg hb]
      refine ih _ _ ?_
      rw [hL1.abs_add, hL2.abs_add, h]

theorem Place_bisim {I1 I2 : SepImpl} {abs1 : I1.σ → Finset Nat}
    {abs2 : I2.σ → Finset Nat} (hL1 : LawfulSep I1 abs1) (hL2 : LawfulSep I2 abs2)
    (sp1 : OrderedStonePlacer I1.σ) (sp2 : OrderedStonePlacer I2.σ)
    (h : OSPRel I1 I2 abs1 abs2 sp1 sp2) :
    OSPRel I1 I2 abs1 abs2 (sp1.Place I1).1 (sp2.Place I2).1 ∧
      (((sp1.Place I1).2 = none ∧ (sp2.Place I2).2 = none) ∨
        ∃ c1 c2, (sp1.Place I1).2 = some c1 ∧ (sp2.Place I2).2 = some c2 ∧
          OSPRel I1 I2 abs1 abs2 c1 c2) := by
  obtain ⟨hg, hs, hn, hsep⟩ := h
  have hchk : (placeCheck I1 sp1.separations sp1.nextStone sp1.stones).map abs1 =
      (placeCheck I2 sp2.separations sp2.nextStone sp2.stones).map abs2 := by
    rw [← hs, ← hn]
    exact placeCheck_bisim hL1 hL2 sp1.nextStone sp1.stones _ _ hsep
  constructor
  · rw [Place_fst, Place_fst]
    exact ⟨hg, hs, by rw [hg, hn], hsep⟩
  · cases hc1 : placeCheck I1 sp1.separations sp1.nextStone sp1.stones with
    | none =>
      rw [hc1] at hchk
      cases hc2 : placeCheck I2 sp2.separations sp2.nextStone sp2.stones with
      | none =>
        refine Or.inl ⟨?_, ?_⟩
        · unfold OrderedStonePlacer.Place
          rw [hc1]
        · unfold OrderedStonePlacer.Place
          rw [hc2]
      | some t2 =>
        rw [hc2] at hchk
        simp at hchk
    | some t1 =>
      rw [hc1] at hchk
      cases hc2 : placeCheck I2 sp2.separations sp2.nextStone sp2.stones with
      | none =>
        rw [hc2] at hchk
        simp at hchk
      | some t2 =>
        rw [hc2] at hchk
        simp only [Option.map_some', Option.some.injEq] at hchk
        refine Or.inr ⟨⟨sp1.grid, sp1.stones ++ [sp1.nextStone], t1,
            AdvanceStone sp1.grid sp1.nextStone⟩,
          ⟨sp2.grid, sp2.stones ++ [sp2.nextStone], t2,
            AdvanceStone sp2.grid sp2.nextStone⟩, ?_, ?_, ?_⟩
        · unfold OrderedStonePlacer.Place
          rw [hc1]
        · unfold OrderedStonePlacer.Place
          rw [hc2]
        · exact ⟨hg, by rw [hs, hn], by rw [hg, hn], hchk⟩

theorem dfsF_loopF_bisim {I1 I2 : SepImpl} {abs1 : I1.σ → Finset Nat}
    {abs2 : I2.σ → Finset Nat} (hL1 : LawfulSep I1 abs1) (hL2 : LawfulSep I2 abs2) :
    ∀ fuel : Nat,
      (∀ (sp1 : OrderedStonePlacer I1.σ) (sp2 : OrderedStonePlacer I2.σ),
        OSPRel I1 I2 abs1 abs2 sp1 sp2 →
        (dfsF I1 fuel sp1).map (Option.map (fun sp => sp.stones)) =
          (dfsF I2 fuel sp2).map (Option.map (fun sp => sp.stones))) ∧
      (∀ (sp1 : OrderedStonePlacer I1.σ) (sp2 : OrderedStonePlacer I2.σ),
        OSPRel I1 I2 abs1 abs2 sp1 sp2 →
        (loopF I1 fuel sp1).map (Option.map (fun sp => sp.stones)) =
          (loopF I2 fuel sp2).map (Option.map (fun sp => sp.stones))) := by
  intro fuel
  induction fuel with
  | zero =>
    constructor <;> intro sp1 sp2 h <;> simp [dfsF, loopF]
  | succ fuel ih =>
    constructor
    · intro sp1 sp2 h
      rw [dfsF, dfsF]
      have hlen : (sp1.stones.length = sp1.grid.size) ↔
          (sp2.stones.length = sp2.grid.size) := by
        rw [h.1, h.2.1]
      by_cases hl : sp1.stones.length = sp1.grid.size
      · rw [if_pos hl, if_pos (hlen.mp hl)]
        simp [h.2.1]
      · rw [if_neg hl, if_neg (fun hx => hl (hlen.mpr hx))]
        exact ih.2 sp1 sp2 h
    · intro sp1 sp2 h
      rw [loopF, loopF]
      have hdone : sp1.Done = sp2.Done := by
        unfold OrderedStonePlacer.Done
        rw [h.1, h.2.2.1]
      by_cases hd : sp1.Done = true
      · rw [if_pos hd, if_pos (hdone ▸ hd)]
        rfl
      · rw [if_neg hd, if_neg (fun hx => hd (hdone ▸ hx))]
        obtain ⟨hrec, hopt⟩ := Place_bisim hL1 hL2 sp1 sp2 h
        rcases hp1 : sp1.Place I1 with ⟨r1, o1⟩
        rcases hp2 : sp2.Place I2 with ⟨r2, o2⟩
        have hrec2 : OSPRel I1 I2 abs1 abs2 r1 r2 := by
          have e1 : r1 = (sp1.Place I1).1 := by rw [hp1]
          have e2 : r2 = (sp2.Place I2).1 := by rw [hp2]
          rw [e1, e2]
          exact hrec
        rw [hp1, hp2] at hopt
        rcases hopt with ⟨ho1, ho2⟩ | ⟨c1, c2, ho1, ho2, hcrel⟩
        · have ho1x : o1 = none := ho1
          have ho2x : o2 = none := ho2
          subst ho1x
          subst ho2x
          exact ih.2 r1 r2 hrec2
        · have ho1x : o1 = some c1 := ho1
          have ho2x : o2 = some c2 := ho2
          subst ho1x
          subst ho2x
          have hchd := ih.1 c1 c2 hcrel
          show Option.map (Option.map (fun sp : OrderedStonePlacer I1.σ => sp.stones))
              (match dfsF I1 fuel c1 with
                | none => none
                | some (some final) => some (some final)
                | some none => loopF I1 fuel r1) =
            Option.map (Option.map (fun sp : OrderedStonePlacer I2.σ => sp.stones))
              (match dfsF I2 fuel c2 with
                | none => none
                | some (some final) => some (some final)
                | some none => loopF I2 fuel r2)
          cases hd1 : dfsF I1 fuel c1 with
          | none =>
            rw [hd1] at hchd
            cases hd2 : dfsF I2 fuel c2 with
            | none => rfl
            | some r =>
              rw [hd2] at hchd
              simp at hchd
          | some q1 =>
            rw [hd1] at hchd
            cases hd2 : dfsF I2 fuel c2 with
            | none =>
              rw [hd2] at hchd
              simp at hchd
            | some q2 =>
              rw [hd2] at hchd
              simp only [Option.map_some', Option.some.injEq] at hchd
              cases q1 with
              | none =>
                cases q2 with
                | none => exact ih.2 r1 r2 hrec2
                | some f2 => simp at hchd
              | some f1 =>
                cases q2 with
                | none => simp at hchd
                | some f2 =>
                  simp only [Option.map_some', Option.some.injEq] at hchd
                  simp [hchd]

theorem solveF_bisim {I1 I2 : SepImpl} {abs1 : I1.σ → Finset Nat}
    {abs2 : I2.σ → Finset Nat} (hL1 : LawfulSep I1 abs1) (hL2 : LawfulSep I2 abs2)
    (fuel : Nat) (g : Grid) :
    ∀ seeds : List (List Point), solveF I1 fuel g seeds = solveF I2 fuel g seeds := by
  intro seeds
  induction seeds with
  | nil => rfl
  | cons seed rest ih =>
    rw [solveF, solveF]
    have hNewRel : OSPRel I1 I2 abs1 abs2
        (OrderedStonePlacerProvider.New I1 g seed)
        (OrderedStonePlacerProvider.New I2 g seed) := by
      refine ⟨rfl, rfl, rfl, ?_⟩
      show abs1 (I1.init seed) = abs2 (I2.init seed)
      rw [hL1.abs_init, hL2.abs_init]
    have hd := (dfsF_loopF_bisim hL1 hL2 fuel).1 _ _ hNewRel
    cases h1 : dfsF I1 fuel (OrderedStonePlacerProvider.New I1 g seed) with
    | none =>
      rw [h1] at hd
      cases h2 : dfsF I2 fuel (OrderedStonePlacerProvider.New I2 g seed) with
      | none => rfl
      | some r =>
        rw [h2] at hd
        simp at hd
    | some q1 =>
      rw [h1] at hd
      cases h2 : dfsF I2 fuel (OrderedStonePlacerProvider.New I2 g seed) with
      | none =>
        rw [h2] at hd
        simp at hd
      | some q2 =>
        rw [h2] at hd
        simp only [Option.map_some', Option.some.injEq] at hd
        cases q1 with
        | none =>
          cases q2 with
          | none => exact ih
          | some f2 => simp at hd
        | some f1 =>
          cases q2 with
          | none => simp at hd
          | some f2 =>
            simp only [Option.map_some', Option.some.injEq] at hd
            simp [hd]

/-- C7.  The sequential solver is deterministic: its result is a function of
the grid and the starting points alone — for any two lawful realizations of
the `SeparationSet` membership semantics (e.g. any two internal orderings of
the hash map across two runs), `Solve` returns the identical value, so two
runs with the same `StartingPointsProvider` and placer implementation return
the same `Placements` in the same order, or the same no-solutions error. -/
theorem C7_sequential_solver_deterministic {I1 I2 : SepImpl}
    {abs1 : I1.σ → Finset Nat} {abs2 : I2.σ → Finset Nat}
    (hL1 : LawfulSep I1 abs1) (hL2 : LawfulSep I2 abs2)
    (fuel : Nat) (spp : Grid → List (List Point)) (g : Grid) :
    Solve I1 fuel spp g = Solve I2 fuel spp g :=
  solveF_bisim hL1 hL2 fuel g (spp g)

/-- Witness for C7: the finset-backed and list-backed separation sets give the
same 3×3 run. -/
theorem C7_witness :
    Solve finsetSepImpl 20 SingleOctantStartingPoints ⟨3⟩ =
      Solve listSepImpl 20 SingleOctantStartingPoints ⟨3⟩ :=
  C7_sequential_solver_deterministic finsetSepImpl_lawful listSepImpl_lawful 20
    SingleOctantStartingPoints ⟨3⟩

/-! ### The membership sets of sets.go (C9)

`mapSeparationSet` is a Go hash map used as a set (embedded as `Finset Nat`;
`Elements` returns its keys in an unspecified order, embedded as `toList`).
`BitArraySeparationSet` is `[49]byte` with big-endian bits inside each byte
(embedded as a function from byte index to byte; indices ≥ 49 are never read
on the bounded domain `sep < 392`, where Go would panic instead).  `Union`
dispatches on the dynamic type of its argument exactly as the Go type switch
does: bit-array against bit-array is a word-wise or, anything else falls back
to iterating `Elements`. -/

/-- `MaxGridSize` from grid.go. -/
def MaxGridSize : Nat := 14

inductive SepSet where
  | map : List Nat → SepSet
  | bits : (Nat → Nat) → SepSet

def SepSet.Has : SepSet → Nat → Bool
  | SepSet.map s, v => decide (v ∈ s)
  | SepSet.bits a, v => decide (a (v >>> 3) &&& (0x80 >>> (v &&& 7)) ≠ 0)

def SepSet.Add : SepSet → Nat → SepSet
  | SepSet.map s, v => if v ∈ s then SepSet.map s else SepSet.map (v :: s)
  | SepSet.bits a, v =>
    SepSet.bits (Function.update a (v >>> 3) (a (v >>> 3) ||| (0x80 >>> (v &&& 7))))

/-- `Elements`: the map's keys in some order; for the bit array, a scan of all
392 possible separations. -/
def SepSet.Elements : SepSet → List Nat
  | SepSet.map s => s
  | SepSet.bits a => (List.range (49 * 8)).filter (fun v => (SepSet.bits a).Has v)

/-- `Union`, with the Go type switch: the map implementation always iterates
the argument's elements setting each key; the bit array ors word-wise against
another bit array and otherwise falls back to `Add` per element. -/
def SepSet.Union : SepSet → SepSet → SepSet
  | SepSet.map s, t => (t.Elements).foldl SepSet.Add (SepSet.map s)
  | SepSet.bits a, SepSet.bits b => SepSet.bits (fun i => if i < 49 then a i ||| b i else a i)
  | SepSet.bits a, t => (t.Elements).foldl SepSet.Add (SepSet.bits a)

/-- The bounded domain: every member is a separation a max-sized grid can
produce (the fixed capacity of the bit array). -/
def SepSet.bounded : SepSet → Prop
  | SepSet.map s => ∀ v ∈ s, v < 392
  | SepSet.bits a => ∀ v : Nat, (SepSet.bits a).Has v = true → v < 392

/-! Bit-twiddling facts. -/

theorem shiftRight_three (v : Nat) : v >>> 3 = v / 8 := by
  rw [Nat.shiftRight_eq_div_pow]

theorem and_seven (v : Nat) : v &&& 7 = v % 8 := by
  simpa using Nat.and_pow_two_sub_one_eq_mod v 3

theorem shift_hex80 (k : Nat) (h : k ≤ 7) : (0x80 : Nat) >>> k = 2 ^ (7 - k) := by
  rw [Nat.shiftRight_eq_div_pow]
  have h2 : (0x80 : Nat) = 2 ^ 7 := by norm_num
  rw [h2, Nat.pow_div h (by norm_num)]

theorem and_two_pow_ne_zero (x i : Nat) : (x &&& 2 ^ i ≠ 0) ↔ x.testBit i = true := by
  rw [Nat.and_two_pow]
  cases h : x.testBit i with
  | false => simp [h]
  | true =>
    have h2 : 0 < (2 : Nat) ^ i := Nat.pow_pos (by norm_num)
    simp [h, h2.ne']

theorem SepSet.bits_has_iff (a : Nat → Nat) (v : Nat) :
    (SepSet.bits a).Has v = true ↔ (a (v / 8)).testBit (7 - v % 8) = true := by
  simp only [SepSet.Has, decide_eq_true_eq]
  rw [shiftRight_three, and_seven, shift_hex80 _ (by omega)]
  exact and_two_pow_ne_zero _ _

theorem SepSet.add_has (s : SepSet) (v w : Nat) (hv : v < 392) (hw : w < 392) :
    ((s.Add w).Has v = true) ↔ (s.Has v = true ∨ v = w) := by
  cases s with
  | map t =>
    show ((if w ∈ t then SepSet.map t else SepSet.map (w :: t)).Has v = true) ↔ _
    by_cases hmem : w ∈ t
    · rw [if_pos hmem]
      simp only [SepSet.Has, decide_eq_true_eq]
      constructor
      · exact fun h => Or.inl h
      · rintro (h | rfl)
        · exact h
        · exact hmem
    · rw [if_neg hmem]
      simp only [SepSet.Has, decide_eq_true_eq, List.mem_cons]
      tauto
  | bits a =>
    show ((SepSet.bits (Function.update a (w >>> 3)
        (a (w >>> 3) ||| (0x80 >>> (w &&& 7))))).Has v = true) ↔ _
    rw [SepSet.bits_has_iff, SepSet.bits_has_iff]
    rw [shiftRight_three, and_seven, shift_hex80 _ (by omega)]
    by_cases hdiv : v / 8 = w / 8
    · rw [hdiv, Function.update_same]
      rw [Nat.testBit_or, Nat.testBit_two_pow]
      constructor
      · intro h
        rcases Bool.or_eq_true_iff.mp h with h | h
        · exact Or.inl h
        · refine Or.inr ?_
          have : 7 - w % 8 = 7 - v % 8 := of_decide_eq_true h
          have hm : v % 8 = w % 8 := by omega
          omega
      · intro h
        rcases h with h | h
        · exact Bool.or_eq_true_iff.mpr (Or.inl h)
        · subst h
          refine Bool.or_eq_true_iff.mpr (Or.inr ?_)
          simp
    · rw [Function.update_noteq hdiv _ _]
      constructor
      · exact fun h => Or.inl h
      · intro h
        rcases h with h | h
        · exact h
        · subst h
          exact absurd rfl hdiv

theorem SepSet.foldl_add_has (l : List Nat) (hl : ∀ w ∈ l, w < 392) :
    ∀ (s : SepSet) (v : Nat), v < 392 →
      (((l.foldl SepSet.Add s).Has v = true) ↔ (s.Has v = true ∨ v ∈ l)) := by
  induction l with
  | nil =>
    intro s v hv
    simp
  | cons w rest ih =>
    intro s v hv
    rw [List.foldl_cons]
    rw [ih (fun x hx => hl x (List.mem_cons_of_mem _ hx)) _ v hv]
    rw [SepSet.add_has s v w hv (hl w (List.mem_cons_self _ _))]
    simp only [List.mem_cons]
    tauto

theorem SepSet.mem_elements (s : SepSet) (hb : s.bounded) (v : Nat) :
    v ∈ s.Elements ↔ (s.Has v = true ∧ v < 392) := by
  cases s with
  | map t =>
    simp only [SepSet.Elements, SepSet.Has, decide_eq_true_eq]
    exact ⟨fun h => ⟨h, hb v h⟩, fun h => h.1⟩
  | bits a =>
    simp only [SepSet.Elements, List.mem_filter, List.mem_range]
    constructor
    · rintro ⟨h1, h2⟩
      exact ⟨h2, by omega⟩
    · rintro ⟨h1, h2⟩
      exact ⟨by omega, h1⟩

theorem SepSet.union_has (a b : SepSet) (ha : a.bounded) (hb : b.bounded)
    (v : Nat) (hv : v < 392) :
    ((a.Union b).Has v = true) ↔ (a.Has v = true ∨ b.Has v = true) := by
  cases a with
  | map s =>
    show (((b.Elements).foldl SepSet.Add (SepSet.map s)).Has v = true) ↔ _
    rw [SepSet.foldl_add_has _ (fun w hw => ((SepSet.mem_elements _ hb w).mp hw).2) _ v hv]
    rw [SepSet.mem_elements _ hb v]
    constructor
    · rintro (h | h)
      · exact Or.inl h
      · exact Or.inr h.1
    · rintro (h | h)
      · exact Or.inl h
      · exact Or.inr ⟨h, hv⟩
  | bits a2 =>
    cases b with
    | bits b2 =>
      show ((SepSet.bits fun i => if i < 49 then a2 i ||| b2 i else a2 i).Has v = true) ↔ _
      rw [SepSet.bits_has_iff, SepSet.bits_has_iff, SepSet.bits_has_iff]
      have hidx : v / 8 < 49 := by omega
      rw [if_pos hidx, Nat.testBit_or]
      exact Bool.or_eq_true_iff
    | map t =>
      show (((SepSet.map t).Elements.foldl SepSet.Add (SepSet.bits a2)).Has v = true) ↔ _
      rw [SepSet.foldl_add_has _ (fun w hw => ((SepSet.mem_elements _ hb w).mp hw).2) _ v hv]
      rw [SepSet.mem_elements _ hb v]
      constructor
      · rintro (h | h)
        · exact Or.inl h
        · exact Or.inr h.1
      · rintro (h | h)
        · exact Or.inl h
        · exact Or.inr ⟨h, hv⟩

/-! ### PointSet implementations (sets.go)

`mapPointSet` (a Go map used as a set, embedded as its key list) and
`BitArrayPointSet` (`[16]uint16`, one word per row, big-endian bits, embedded
as a function from row to word).  The bit array's iterator
(`bitArrayPointSetIterator`) walks the 14×14 grid in row-major order, skipping
rows whose word is zero; it is embedded with explicit fuel (256 exceeds the
196 cells of the walk, so the fuel never runs out on the modelled domain). -/

inductive PointSet where
  | map : List Point → PointSet
  | bits : (Nat → Nat) → PointSet

def PointSet.Has : PointSet → Point → Bool
  | PointSet.map s, p => decide (p ∈ s)
  | PointSet.bits a, p => decide (a p.row &&& (0x8000 >>> p.col) ≠ 0)

def PointSet.Add : PointSet → Point → PointSet
  | PointSet.map s, p => if p ∈ s then PointSet.map s else PointSet.map (p :: s)
  | PointSet.bits a, p =>
    PointSet.bits (Function.update a p.row (a p.row ||| (0x8000 >>> p.col)))

/-- The inner `for` of `bitArrayPointSetIterator.Next`: skip over empty rows
without iterating through columns. -/
def iterSkipRows (a : Nat → Nat) (p : Point) : Point :=
  if h : p.row < MaxGridSize ∧ a p.row = 0 then iterSkipRows a ⟨p.row + 1, 0⟩ else p
termination_by MaxGridSize - p.row
decreasing_by
  omega

/-- The outer `for` of `bitArrayPointSetIterator.Next`: advance in row-major
order (skipping empty rows) until a member is found or the walk leaves the
grid. -/
def iterScan (a : Nat → Nat) : Nat → Point → Point
  | 0, q => q
  | fuel + 1, q =>
    if q.row < MaxGridSize then
      if (PointSet.bits a).Has (iterSkipRows a q) then iterSkipRows a q
      else iterScan a fuel (AdvanceStone ⟨MaxGridSize⟩ (iterSkipRows a q))
    else q

/-- The `Elements` collection loop: call `Next` until `ErrIterationFinished`,
collecting the returned points; each `Next` returns the current point and
leaves the iterator at the next member. -/
def iterCollect (a : Nat → Nat) : Nat → Point → List Point
  | 0, _ => []
  | fuel + 1, p =>
    if p.row < MaxGridSize then
      p :: iterCollect a fuel (iterScan a 256 (AdvanceStone ⟨MaxGridSize⟩ p))
    else []

/-- `Elements`: the map's keys; for the bit array, the iterator walk
(`Iter` pre-advances past `{0,0}` when it is not a member, discarding the
first `Next` result). -/
def PointSet.Elements : PointSet → List Point
  | PointSet.map s => s
  | PointSet.bits a =>
    if (PointSet.bits a).Has ⟨0, 0⟩ then iterCollect a 256 ⟨0, 0⟩
    else iterCollect a 256 (iterScan a 256 (AdvanceStone ⟨MaxGridSize⟩ ⟨0, 0⟩))

/-- `Union`, with the Go type switch (word-wise or for two bit arrays,
`genericPointSetUnion` over the argument's iterator otherwise). -/
def PointSet.Union : PointSet → PointSet → PointSet
  | PointSet.map s, t => (t.Elements).foldl PointSet.Add (PointSet.map s)
  | PointSet.bits a, PointSet.bits b =>
    PointSet.bits (fun i => if i < 16 then a i ||| b i else a i)
  | PointSet.bits a, t => (t.Elements).foldl PointSet.Add (PointSet.bits a)

/-- The bounded domain: every member is a cell of a max-sized grid. -/
def PointSet.bounded : PointSet → Prop
  | PointSet.map s => ∀ p ∈ s, p.row < MaxGridSize ∧ p.col < MaxGridSize
  | PointSet.bits a => ∀ p : Point,
      (PointSet.bits a).Has p = true → p.row < MaxGridSize ∧ p.col < MaxGridSize

theorem shift_hex8000 (k : Nat) (h : k ≤ 15) : (0x8000 : Nat) >>> k = 2 ^ (15 - k) := by
  rw [Nat.shiftRight_eq_div_pow]
  have h2 : (0x8000 : Nat) = 2 ^ 15 := by norm_num
  rw [h2, Nat.pow_div h (by norm_num)]

theorem PointSet.bits_has_iff_pt (a : Nat → Nat) (p : Point) (h : p.col ≤ 15) :
    (PointSet.bits a).Has p = true ↔ (a p.row).testBit (15 - p.col) = true := by
  simp only [PointSet.Has, decide_eq_true_eq]
  rw [shift_hex8000 _ h]
  exact and_two_pow_ne_zero _ _

theorem PointSet.bits_has_high_col (a : Nat → Nat) (p : Point) (h : 15 < p.col) :
    (PointSet.bits a).Has p = false := by
  simp only [PointSet.Has, decide_eq_false_iff_not, Ne, not_not]
  have : (0x8000 : Nat) >>> p.col = 0 := by
    rw [Nat.shiftRight_eq_div_pow]
    refine Nat.div_eq_of_lt ?_
    calc (0x8000 : Nat) < 2 ^ 16 := by norm_num
      _ ≤ 2 ^ p.col := Nat.pow_le_pow_right (by norm_num) (by omega)
  rw [this, Nat.and_zero]

/-- Row-major cell index on the maximum grid (proof-side measure). -/
def idx14 (p : Point) : Nat := p.row * MaxGridSize + p.col

theorem advance14_idx (p : Point) (hc : p.col ≤ 13) :
    idx14 (AdvanceStone ⟨MaxGridSize⟩ p) = idx14 p + 1 ∧
      (AdvanceStone ⟨MaxGridSize⟩ p).col ≤ 13 := by
  unfold AdvanceStone idx14 MaxGridSize
  by_cases h : p.col + 1 = 14
  · rw [if_pos (by simpa using h)]
    simp only
    omega
  · rw [if_neg (by simpa using h)]
    simp only
    omega

theorem idx14_inj (p q : Point) (hp : p.col ≤ 13) (hq : q.col ≤ 13)
    (h : idx14 p = idx14 q) : p = q := by
  unfold idx14 MaxGridSize at h
  have hr : p.row = q.row := by omega
  have hc : p.col = q.col := by omega
  cases p
  cases q
  simp only [Point.mk.injEq]
  exact ⟨hr, hc⟩

theorem iterSkipRows_spec (a : Nat → Nat) (q : Point) :
    (iterSkipRows a q = q ∨
      ((iterSkipRows a q).col = 0 ∧ q.row < (iterSkipRows a q).row)) ∧
    (∀ r : Nat, q.row ≤ r → r < (iterSkipRows a q).row → a r = 0) := by
  have main : ∀ (n : Nat) (q : Point), MaxGridSize - q.row ≤ n →
      (iterSkipRows a q = q ∨
        ((iterSkipRows a q).col = 0 ∧ q.row < (iterSkipRows a q).row)) ∧
      (∀ r : Nat, q.row ≤ r → r < (iterSkipRows a q).row → a r = 0) := by
    intro n
    induction n with
    | zero =>
      intro q hn
      rw [iterSkipRows]
      have hcond : ¬(q.row < MaxGridSize ∧ a q.row = 0) := by
        unfold MaxGridSize at hn ⊢
        omega
      rw [dif_neg hcond]
      exact ⟨Or.inl rfl, fun r h1 h2 => absurd (lt_of_le_of_lt h1 h2) (by omega)⟩
    | succ n ih =>
      intro q hn
      rw [iterSkipRows]
      by_cases hcond : q.row < MaxGridSize ∧ a q.row = 0
      · rw [dif_pos hcond]
        have hih := ih ⟨q.row + 1, 0⟩ (by simp only; omega)
        constructor
        · rcases hih.1 with h | h
          · rw [h]
            exact Or.inr ⟨rfl, by simp only; omega⟩
          · exact Or.inr ⟨h.1, by have := h.2; simp only at this; omega⟩
        · intro r h1 h2
          by_cases hr : r = q.row
          · subst hr
            exact hcond.2
          · refine hih.2 r ?_ h2
            simp only
            omega
      · rw [dif_neg hcond]
        exact ⟨Or.inl rfl, fun r h1 h2 => absurd (lt_of_le_of_lt h1 h2) (by omega)⟩
  exact main (MaxGridSize - q.row) q le_rfl

theorem iterSkipRows_facts (a : Nat → Nat) (q : Point) (hc : q.col ≤ 13) :
    (iterSkipRows a q).col ≤ 13 ∧ idx14 q ≤ idx14 (iterSkipRows a q) ∧
      q.row ≤ (iterSkipRows a q).row := by
  obtain ⟨h1, -⟩ := iterSkipRows_spec a q
  rcases h1 with h | h
  · rw [h]
    exact ⟨hc, le_rfl, le_rfl⟩
  · obtain ⟨hcol, hrow⟩ := h
    refine ⟨by omega, ?_, by omega⟩
    unfold idx14 MaxGridSize
    have h14 : (q.row + 1) * 14 ≤ (iterSkipRows a q).row * 14 :=
      Nat.mul_le_mul_right _ hrow
    rw [Nat.succ_mul] at h14
    omega

theorem skipRows_no_member (a : Nat → Nat) (hb : (PointSet.bits a).bounded)
    (q : Point) (hc : q.col ≤ 13) (m : Point)
    (hm : (PointSet.bits a).Has m = true) (hmi : idx14 q ≤ idx14 m) :
    idx14 (iterSkipRows a q) ≤ idx14 m := by
  obtain ⟨hshape, hempty⟩ := iterSkipRows_spec a q
  obtain ⟨hmr, hmc⟩ := hb m hm
  have hmr14 : m.row < 14 := hmr
  have hmc14 : m.col < 14 := hmc
  have hmrow : q.row ≤ m.row := by
    unfold idx14 MaxGridSize at hmi
    by_contra hx
    push_neg at hx
    have h14 : (m.row + 1) * 14 ≤ q.row * 14 := Nat.mul_le_mul_right _ hx
    rw [Nat.succ_mul] at h14
    omega
  by_cases hlt : m.row < (iterSkipRows a q).row
  · exfalso
    have hrow0 := hempty m.row hmrow hlt
    rw [PointSet.bits_has_iff_pt a m (by omega)] at hm
    rw [hrow0] at hm
    simp [Nat.zero_testBit] at hm
  · push_neg at hlt
    rcases hshape with h | h
    · rw [h]
      exact hmi
    · have h14 : (iterSkipRows a q).row * 14 ≤ m.row * 14 :=
        Nat.mul_le_mul_right _ hlt
      unfold idx14 MaxGridSize
      omega

theorem iterScan_spec (a : Nat → Nat) (hb : (PointSet.bits a).bounded) :
    ∀ (fuel : Nat) (q : Point), q.col ≤ 13 → 196 - idx14 q < fuel →
      ((PointSet.bits a).Has (iterScan a fuel q) = true ∨
        MaxGridSize ≤ (iterScan a fuel q).row) ∧
      (iterScan a fuel q).col ≤ 13 ∧
      idx14 q ≤ idx14 (iterScan a fuel q) ∧
      (∀ m : Point, (PointSet.bits a).Has m = true → idx14 q ≤ idx14 m →
        idx14 (iterScan a fuel q) ≤ idx14 m) := by
  intro fuel
  induction fuel with
  | zero =>
    intro q hc hf
    omega
  | succ fuel ih =>
    intro q hc hf
    rw [iterScan]
    by_cases hrow : q.row < MaxGridSize
    · rw [if_pos hrow]
      obtain ⟨hq2c, hq2i, hq2r⟩ := iterSkipRows_facts a q hc
      have hqlt : idx14 q ≤ 195 := by
        have hr14 : q.row ≤ 13 := by
          unfold MaxGridSize at hrow
          omega
        have h14 : q.row * 14 ≤ 13 * 14 := Nat.mul_le_mul_right _ hr14
        unfold idx14 MaxGridSize
        omega
      by_cases hhas : (PointSet.bits a).Has (iterSkipRows a q) = true
      · rw [if_pos hhas]
        exact ⟨Or.inl hhas, hq2c, hq2i,
          fun m hm hmi => skipRows_no_member a hb q hc m hm hmi⟩
      · rw [if_neg hhas]
        obtain ⟨hadv, hadvc⟩ := advance14_idx (iterSkipRows a q) hq2c
        have hih := ih (AdvanceStone ⟨MaxGridSize⟩ (iterSkipRows a q)) hadvc
          (by omega)
        refine ⟨hih.1, hih.2.1, by omega, ?_⟩
        intro m hm hmi
        have h1 : idx14 (iterSkipRows a q) ≤ idx14 m :=
          skipRows_no_member a hb q hc m hm hmi
        have hmc : m.col ≤ 13 := by
          obtain ⟨-, h⟩ := hb m hm
          unfold MaxGridSize at h
          omega
        have hne : m ≠ iterSkipRows a q := by
          intro hx
          rw [← hx] at hhas
          exact hhas hm
        have h2 : idx14 (iterSkipRows a q) < idx14 m := by
          rcases Nat.lt_or_ge (idx14 (iterSkipRows a q)) (idx14 m) with h | h
          · exact h
          · exfalso
            exact hne (idx14_inj m (iterSkipRows a q) hmc hq2c (by omega))
        exact hih.2.2.2 m hm (by omega)
    · rw [if_neg hrow]
      exact ⟨Or.inr (by omega), hc, le_rfl, fun m hm hmi => hmi⟩

theorem iterCollect_mem (a : Nat → Nat) (hb : (PointSet.bits a).bounded) :
    ∀ (fuel : Nat) (q : Point),
      ((PointSet.bits a).Has q = true ∨ MaxGridSize ≤ q.row) → q.col ≤ 13 →
      196 - idx14 q < fuel →
      ∀ m : Point, m.col ≤ 13 →
        (m ∈ iterCollect a fuel q ↔
          ((PointSet.bits a).Has m = true ∧ idx14 q ≤ idx14 m)) := by
  intro fuel
  induction fuel with
  | zero =>
    intro q hvalid hc hf
    omega
  | succ fuel ih =>
    intro q hvalid hc hf m hmc
    rw [iterCollect]
    by_cases hrow : q.row < MaxGridSize
    · rw [if_pos hrow]
      have hq : (PointSet.bits a).Has q = true := by
        rcases hvalid with h | h
        · exact h
        · exfalso
          unfold MaxGridSize at h hrow
          omega
      have hqlt : idx14 q ≤ 195 := by
        have hr14 : q.row ≤ 13 := by
          unfold MaxGridSize at hrow
          omega
        have h14 : q.row * 14 ≤ 13 * 14 := Nat.mul_le_mul_right _ hr14
        unfold idx14 MaxGridSize
        omega
      obtain ⟨hadv, hadvc⟩ := advance14_idx q hc
      have hscan := iterScan_spec a hb 256 (AdvanceStone ⟨MaxGridSize⟩ q) hadvc
        (by omega)
      have hrest := ih (iterScan a 256 (AdvanceStone ⟨MaxGridSize⟩ q))
        (by
          rcases hscan.1 with h | h
          · exact Or.inl h
          · exact Or.inr h)
        hscan.2.1 (by omega) m hmc
      rw [List.mem_cons, hrest]
      constructor
      · rintro (rfl | ⟨hm, hi⟩)
        · exact ⟨hq, le_rfl⟩
        · exact ⟨hm, by omega⟩
      · rintro ⟨hm, hi⟩
        by_cases heq : idx14 m = idx14 q
        · exact Or.inl (idx14_inj m q hmc hc heq)
        · refine Or.inr ⟨hm, ?_⟩
          exact hscan.2.2.2 m hm (by omega)
    · rw [if_neg hrow]
      simp only [List.not_mem_nil, false_iff, not_and]
      intro hm
      obtain ⟨hmr, -⟩ := hb m hm
      have h14 : m.row * 14 < 14 * 14 :=
        Nat.mul_lt_mul_of_lt_of_le hmr le_rfl (by norm_num)
      have h15 : MaxGridSize * 14 ≤ q.row * 14 :=
        Nat.mul_le_mul_right _ (by omega)
      unfold idx14 MaxGridSize at *
      omega

theorem PointSet.elements_bits (a : Nat → Nat) :
    (PointSet.bits a).Elements =
      if (PointSet.bits a).Has ⟨0, 0⟩ then iterCollect a 256 ⟨0, 0⟩
      else iterCollect a 256 (iterScan a 256 (AdvanceStone ⟨MaxGridSize⟩ ⟨0, 0⟩)) :=
  rfl

theorem PointSet.bounded_mem (s : PointSet) (hb : s.bounded) (p : Point)
    (h : s.Has p = true) : p.row < MaxGridSize ∧ p.col < MaxGridSize := by
  cases s with
  | map t =>
    refine hb p ?_
    simpa [PointSet.Has] using h
  | bits a => exact hb p h

theorem iterCollect_col (a : Nat → Nat) (hb : (PointSet.bits a).bounded) :
    ∀ (fuel : Nat) (q : Point), q.col ≤ 13 →
      ∀ m ∈ iterCollect a fuel q, m.col ≤ 13 := by
  intro fuel
  induction fuel with
  | zero =>
    intro q hc m hm
    simp [iterCollect] at hm
  | succ fuel ih =>
    intro q hc m hm
    rw [iterCollect] at hm
    by_cases hrow : q.row < MaxGridSize
    · rw [if_pos hrow] at hm
      rcases List.mem_cons.mp hm with rfl | hm2
      · exact hc
      · have hscan := iterScan_spec a hb 256 (AdvanceStone ⟨MaxGridSize⟩ q)
          (advance14_idx q hc).2 (by omega)
        exact ih _ hscan.2.1 m hm2
    · rw [if_neg hrow] at hm
      simp at hm

theorem PointSet.mem_elements_pt (s : PointSet) (hb : s.bounded) (m : Point) :
    m ∈ s.Elements ↔ s.Has m = true := by
  cases s with
  | map t =>
    simp [PointSet.Elements, PointSet.Has]
  | bits a =>
    by_cases hm2 : m.col ≤ 13
    · rw [PointSet.elements_bits]
      by_cases h0 : (PointSet.bits a).Has ⟨0, 0⟩ = true
      · rw [if_pos h0]
        rw [iterCollect_mem a hb 256 ⟨0, 0⟩ (Or.inl h0) (by norm_num) (by
          unfold idx14 MaxGridSize
          simp only
          omega) m hm2]
        constructor
        · exact fun h => h.1
        · intro h
          refine ⟨h, ?_⟩
          unfold idx14 MaxGridSize
          simp only
          omega
      · rw [if_neg h0]
        have hadv : AdvanceStone ⟨MaxGridSize⟩ (⟨0, 0⟩ : Point) = ⟨0, 1⟩ := by
          unfold AdvanceStone MaxGridSize
          norm_num
        rw [hadv]
        have hscan := iterScan_spec a hb 256 ⟨0, 1⟩ (by norm_num) (by
          unfold idx14 MaxGridSize
          simp only
          omega)
        rw [iterCollect_mem a hb 256 _ (by
            rcases hscan.1 with h | h
            · exact Or.inl h
            · exact Or.inr h)
          hscan.2.1 (by
            have hle := hscan.2.2.1
            omega) m hm2]
        constructor
        · exact fun h => h.1
        · intro h
          refine ⟨h, ?_⟩
          refine hscan.2.2.2 m h ?_
          have hne : m ≠ (⟨0, 0⟩ : Point) := by
            intro hx
            rw [hx] at h
            exact h0 h
          have hnz : idx14 m ≠ 0 := by
            intro hx
            refine hne (idx14_inj m ⟨0, 0⟩ hm2 (by norm_num) ?_)
            unfold idx14 MaxGridSize at hx ⊢
            simp only at hx ⊢
            omega
          unfold idx14 MaxGridSize at hnz ⊢
          simp only at hnz ⊢
          omega
    · have hhasF : (PointSet.bits a).Has m = false := by
        by_cases h15 : m.col ≤ 15
        · by_contra hx
          rw [Bool.not_eq_false] at hx
          obtain ⟨-, h⟩ := hb m hx
          unfold MaxGridSize at h
          omega
        · exact PointSet.bits_has_high_col a m (by omega)
      rw [hhasF]
      simp only [Bool.false_eq_true, iff_false]
      intro hmem
      rw [PointSet.elements_bits] at hmem
      by_cases h0 : (PointSet.bits a).Has ⟨0, 0⟩ = true
      · rw [if_pos h0] at hmem
        exact hm2 (iterCollect_col a hb 256 ⟨0, 0⟩ (by norm_num) m hmem)
      · rw [if_neg h0] at hmem
        have hadv : AdvanceStone ⟨MaxGridSize⟩ (⟨0, 0⟩ : Point) = ⟨0, 1⟩ := by
          unfold AdvanceStone MaxGridSize
          norm_num
        rw [hadv] at hmem
        have hscan := iterScan_spec a hb 256 ⟨0, 1⟩ (by norm_num) (by
          unfold idx14 MaxGridSize
          simp only
          omega)
        exact hm2 (iterCollect_col a hb 256 _ hscan.2.1 m hmem)

theorem PointSet.add_has_pt (s : PointSet) (p w : Point)
    (hp : p.col ≤ 15) (hw : w.col ≤ 15) :
    ((s.Add w).Has p = true) ↔ (s.Has p = true ∨ p = w) := by
  cases s with
  | map t =>
    show ((if w ∈ t then PointSet.map t else PointSet.map (w :: t)).Has p = true) ↔ _
    by_cases hmem : w ∈ t
    · rw [if_pos hmem]
      simp only [PointSet.Has, decide_eq_true_eq]
      constructor
      · exact fun h => Or.inl h
      · rintro (h | rfl)
        · exact h
        · exact hmem
    · rw [if_neg hmem]
      simp only [PointSet.Has, decide_eq_true_eq, List.mem_cons]
      tauto
  | bits a =>
    show ((PointSet.bits (Function.update a w.row
        (a w.row ||| (0x8000 >>> w.col)))).Has p = true) ↔ _
    rw [PointSet.bits_has_iff_pt _ _ hp, PointSet.bits_has_iff_pt _ _ hp]
    rw [shift_hex8000 _ hw]
    by_cases hrow : p.row = w.row
    · rw [hrow, Function.update_same]
      rw [Nat.testBit_or, Nat.testBit_two_pow]
      constructor
      · intro h
        rcases Bool.or_eq_true_iff.mp h with h | h
        · exact Or.inl h
        · refine Or.inr ?_
          have hcc : 15 - w.col = 15 - p.col := of_decide_eq_true h
          have : p.col = w.col := by omega
          cases p
          cases w
          simp only [Point.mk.injEq]
          simp only at hrow this
          exact ⟨hrow, this⟩
      · intro h
        rcases h with h | h
        · exact Bool.or_eq_true_iff.mpr (Or.inl h)
        · subst h
          refine Bool.or_eq_true_iff.mpr (Or.inr ?_)
          simp
    · rw [Function.update_noteq hrow _ _]
      constructor
      · exact fun h => Or.inl h
      · rintro (h | rfl)
        · exact h
        · exact absurd rfl hrow

theorem PointSet.foldl_add_has_pt (l : List Point) (hl : ∀ w ∈ l, w.col ≤ 15) :
    ∀ (s : PointSet) (p : Point), p.col ≤ 15 →
      (((l.foldl PointSet.Add s).Has p = true) ↔ (s.Has p = true ∨ p ∈ l)) := by
  induction l with
  | nil =>
    intro s p hp
    simp
  | cons w rest ih =>
    intro s p hp
    rw [List.foldl_cons]
    rw [ih (fun x hx => hl x (List.mem_cons_of_mem _ hx)) _ p hp]
    rw [PointSet.add_has_pt s p w hp (hl w (List.mem_cons_self _ _))]
    simp only [List.mem_cons]
    tauto

theorem PointSet.union_has_pt (a b : PointSet) (ha : a.bounded) (hb : b.bounded)
    (p : Point) (hp : p.row < MaxGridSize) (hpc : p.col < MaxGridSize) :
    ((a.Union b).Has p = true) ↔ (a.Has p = true ∨ b.Has p = true) := by
  have hmemcol : ∀ w ∈ b.Elements, w.col ≤ 15 := by
    intro w hw
    have hhw := (PointSet.mem_elements_pt b hb w).mp hw
    obtain ⟨-, h⟩ := PointSet.bounded_mem b hb w hhw
    unfold MaxGridSize at h
    omega
  have hpc15 : p.col ≤ 15 := by
    unfold MaxGridSize at hpc
    omega
  cases a with
  | map s =>
    show (((b.Elements).foldl PointSet.Add (PointSet.map s)).Has p = true) ↔ _
    rw [PointSet.foldl_add_has_pt _ hmemcol _ p hpc15]
    rw [PointSet.mem_elements_pt b hb p]
  | bits a2 =>
    cases b with
    | bits b2 =>
      show ((PointSet.bits fun i => if i < 16 then a2 i ||| b2 i else a2 i).Has p = true) ↔ _
      rw [PointSet.bits_has_iff_pt _ _ hpc15, PointSet.bits_has_iff_pt _ _ hpc15,
        PointSet.bits_has_iff_pt _ _ hpc15]
      have hidx : p.row < 16 := by
        unfold MaxGridSize at hp
        omega
      rw [if_pos hidx, Nat.testBit_or]
      exact Bool.or_eq_true_iff
    | map t =>
      show (((PointSet.map t).Elements.foldl PointSet.Add (PointSet.bits a2)).Has p = true) ↔ _
      rw [PointSet.foldl_add_has_pt _ hmemcol _ p hpc15]
      rw [PointSet.mem_elements_pt (PointSet.map t) hb p]

/-- C9.  For both `SeparationSet` implementations and both `PointSet`
implementations, and every pair of sets over the bounded domain, after
`a.Union(b)` an element is a member of the result exactly when it was a member
of `a` or of `b`; consequently `Union` is commutative and idempotent on
element membership.  All four dispatch combinations of the Go type switches
are covered. -/
theorem C9_union_membership :
    (∀ a b : SepSet, a.bounded → b.bounded → ∀ v : Nat, v < 392 →
      (((a.Union b).Has v = true) ↔ (a.Has v = true ∨ b.Has v = true)) ∧
      ((a.Union b).Has v = (b.Union a).Has v) ∧
      ((a.Union a).Has v = a.Has v)) ∧
    (∀ a b : PointSet, a.bounded → b.bounded →
      ∀ p : Point, p.row < MaxGridSize → p.col < MaxGridSize →
      (((a.Union b).Has p = true) ↔ (a.Has p = true ∨ b.Has p = true)) ∧
      ((a.Union b).Has p = (b.Union a).Has p) ∧
      ((a.Union a).Has p = a.Has p)) := by
  constructor
  · intro a b ha hb v hv
    refine ⟨SepSet.union_has a b ha hb v hv, ?_, ?_⟩
    · rw [Bool.eq_iff_iff]
      rw [SepSet.union_has a b ha hb v hv, SepSet.union_has b a hb ha v hv]
      exact or_comm
    · rw [Bool.eq_iff_iff]
      rw [SepSet.union_has a a ha ha v hv]
      exact or_self_iff
  · intro a b ha hb p hp hpc
    refine ⟨PointSet.union_has_pt a b ha hb p hp hpc, ?_, ?_⟩
    · rw [Bool.eq_iff_iff]
      rw [PointSet.union_has_pt a b ha hb p hp hpc, PointSet.union_has_pt b a hb ha p hp hpc]
      exact or_comm
    · rw [Bool.eq_iff_iff]
      rw [PointSet.union_has_pt a a ha ha p hp hpc]
      exact or_self_iff

/-- Witness for C9: a bit-array separation set holding 9 unioned with a map
separation set holding 1, and a bit-array point set holding B2 unioned with a
map point set holding A1, at concrete query elements. -/
theorem C9_witness :
    ((((SepSet.bits (fun i => if i = 1 then 0x40 else 0)).Union
        (SepSet.map [1])).Has 1 = true) ↔
      ((SepSet.bits (fun i => if i = 1 then 0x40 else 0)).Has 1 = true ∨
        (SepSet.map [1]).Has 1 = true)) ∧
    ((((PointSet.bits (fun r => if r = 1 then 0x2000 else 0)).Union
        (PointSet.map [⟨0, 1⟩])).Has ⟨1, 2⟩ = true) ↔
      ((PointSet.bits (fun r => if r = 1 then 0x2000 else 0)).Has ⟨1, 2⟩ = true ∨
        (PointSet.map [⟨0, 1⟩]).Has ⟨1, 2⟩ = true)) := by
  constructor
  · refine (C9_union_membership.1 (SepSet.bits (fun i => if i = 1 then 0x40 else 0))
      (SepSet.map [1]) ?_ ?_ 1 (by norm_num)).1
    · intro v hhas
      simp only [SepSet.Has, decide_eq_true_eq] at hhas
      by_contra hx
      push_neg at hx
      have hdiv : 49 ≤ v >>> 3 := by
        rw [shiftRight_three]
        omega
      have : (if v >>> 3 = 1 then (0x40 : Nat) else 0) = 0 := by
        rw [if_neg (by omega)]
      rw [this, Nat.zero_and] at hhas
      exact hhas rfl
    · intro v hv
      rcases List.mem_singleton.mp hv with rfl
      norm_num
  · refine (C9_union_membership.2 (PointSet.bits (fun r => if r = 1 then 0x2000 else 0))
      (PointSet.map [⟨0, 1⟩]) ?_ ?_ ⟨1, 2⟩ (by norm_num [MaxGridSize])
      (by norm_num [MaxGridSize])).1
    · intro p hhas
      have hrow : p.row = 1 := by
        by_contra hr
        simp only [PointSet.Has, decide_eq_true_eq] at hhas
        have hz : (if p.row = 1 then (0x2000 : Nat) else 0) = 0 := by
          rw [if_neg hr]
        rw [hz, Nat.zero_and] at hhas
        exact hhas rfl
      have hcol : p.col = 2 := by
        by_cases h15 : p.col ≤ 15
        · rw [PointSet.bits_has_iff_pt _ _ h15] at hhas
          rw [hrow] at hhas
          simp only [if_pos] at hhas
          rw [show (0x2000 : Nat) = 2 ^ 13 by norm_num, Nat.testBit_two_pow] at hhas
          have h13 := of_decide_eq_true hhas
          omega
        · rw [PointSet.bits_has_high_col _ _ (by omega)] at hhas
          exact absurd hhas Bool.false_ne_true
      unfold MaxGridSize
      omega
    · intro p hp
      rcases List.mem_singleton.mp hp with rfl
      norm_num [MaxGridSize]

/-! ### The preallocated no-alloc ordered placer (orderedNoAllocStonePlacer)

The provider preallocates one placer record per search depth, linked
father→child by position; the whole arena is embedded as a list of slots and
`Place` at depth `d` is a function on the arena.  The slot's separation set is
the `SeparationSet` the provider installed (a `BitArraySeparationSet`);
`Clone` follows the Go dispatch (bit-array to bit-array is a plain copy). -/

def SepSet.Clear : SepSet → SepSet
  | SepSet.map _ => SepSet.map []
  | SepSet.bits _ => SepSet.bits (fun _ => 0)

def SepSet.Clone : SepSet → SepSet → SepSet
  | SepSet.bits _, SepSet.bits b => SepSet.bits b
  | s, t => (s.Clear).Union t

structure NoAllocPlacer where
  grid : Grid
  stones : List Point
  separations : SepSet
  nextStone : Point

instance : Inhabited NoAllocPlacer :=
  ⟨⟨⟨0⟩, [], SepSet.bits (fun _ => 0), ⟨0, 0⟩⟩⟩

/-- The separation-checking loop of `orderedNoAllocStonePlacer.Place`,
mutating the child's (cloned) separation set in place; the Bool is false when
the unique-distance constraint is violated (the partial adds stay). -/
def placeSepsLoop (seps : SepSet) (next : Point) : List Point → SepSet × Bool
  | [] => (seps, true)
  | p :: rest =>
    let s := Separation next p
    if seps.Has s then (seps, false)
    else placeSepsLoop (seps.Add s) next rest

/-- Go's `copy(dst, src)`: overwrite the first `min |dst| |src|` entries of
`dst` with those of `src`, keeping `dst`'s length. -/
def goCopy (dst src : List Point) : List Point :=
  src.take dst.length ++ dst.drop src.length

/-- `orderedNoAllocStonePlacer.Place` on the arena at depth `d`: clone the
parent's separations into the child slot, run the check loop, on success
overwrite the child's stones and cursor; the deferred advance moves the
parent's cursor in both outcomes.  Returns the new arena and the child index
on success (`none` models the error return). -/
def NoAllocPlace (arena : List NoAllocPlacer) (d : Nat) : List NoAllocPlacer × Option Nat :=
  let sp := arena.getD d default
  let child := arena.getD (d + 1) default
  let res := placeSepsLoop (child.separations.Clone sp.separations) sp.nextStone sp.stones
  let sp2 := { sp with nextStone := AdvanceStone sp.grid sp.nextStone }
  if res.2 then
    let child2 : NoAllocPlacer :=
      { grid := child.grid,
        stones := (goCopy child.stones sp.stones).set sp.stones.length sp.nextStone,
        separations := res.1,
        nextStone := AdvanceStone sp.grid sp.nextStone }
    ((arena.set (d + 1) child2).set d sp2, some (d + 1))
  else
    (((arena.set (d + 1) { child with separations := res.1 }).set d sp2), none)

/-! Helper facts for the arena. -/

theorem getD_set_eq {α : Type} [Inhabited α] (l : List α) (i : Nat) (a : α)
    (h : i < l.length) : (l.set i a).getD i default = a := by
  rw [List.getD_eq_getElem?_getD, List.getElem?_set_self (by simpa using h)]
  rfl

theorem getD_set_ne {α : Type} [Inhabited α] (l : List α) (i j : Nat) (a : α)
    (h : i ≠ j) : (l.set i a).getD j default = l.getD j default := by
  rw [List.getD_eq_getElem?_getD, List.getElem?_set_ne h, ← List.getD_eq_getElem?_getD]

theorem set_append_singleton (src : List Point) (x v : Point) :
    (src ++ [x]).set src.length v = src ++ [v] := by
  induction src with
  | nil => rfl
  | cons a s ih =>
    show a :: ((s ++ [x]).set s.length v) = a :: (s ++ [v])
    rw [ih]

theorem goCopy_snoc (dst src : List Point) (v : Point) (h : dst.length = src.length + 1) :
    (goCopy dst src).set src.length v = src ++ [v] := by
  unfold goCopy
  rw [List.take_of_length_le (by omega)]
  obtain ⟨x, hx⟩ := List.length_eq_one.mp
    (show (dst.drop src.length).length = 1 by rw [List.length_drop]; omega)
  rw [hx]
  exact set_append_singleton src x v

theorem SepSet.clone_bits (cf pf : Nat → Nat) :
    (SepSet.bits cf).Clone (SepSet.bits pf) = SepSet.bits pf := rfl

theorem SepSet.add_monotone (s : SepSet) (v w : Nat) (h : s.Has v = true) :
    (s.Add w).Has v = true := by
  cases s with
  | map t =>
    show ((if w ∈ t then SepSet.map t else SepSet.map (w :: t)).Has v = true)
    simp only [SepSet.Has, decide_eq_true_eq] at h
    by_cases hmem : w ∈ t
    · rw [if_pos hmem]
      simpa [SepSet.Has] using h
    · rw [if_neg hmem]
      simp only [SepSet.Has, decide_eq_true_eq, List.mem_cons]
      exact Or.inr h
  | bits a =>
    show ((SepSet.bits (Function.update a (w >>> 3)
        (a (w >>> 3) ||| (0x80 >>> (w &&& 7))))).Has v = true)
    rw [SepSet.bits_has_iff] at h ⊢
    rw [shiftRight_three]
    by_cases hdiv : v / 8 = w / 8
    · rw [hdiv] at h
      rw [hdiv, Function.update_same, Nat.testBit_or, h]
      rfl
    · rw [Function.update_noteq hdiv _ _]
      exact h

theorem placeSepsLoop_fails (next : Point) (l : List Point) (s0 : SepSet)
    (hex : ∃ p ∈ l, s0.Has (Separation next p) = true) :
    ∀ acc : SepSet, (∀ v, s0.Has v = true → acc.Has v = true) →
      (placeSepsLoop acc next l).2 = false := by
  induction l with
  | nil =>
    obtain ⟨p, hp, -⟩ := hex
    exact absurd hp (by simp)
  | cons p rest ih =>
    intro acc hacc
    rw [placeSepsLoop]
    by_cases hhas : acc.Has (Separation next p) = true
    · rw [if_pos hhas]
    · rw [if_neg hhas]
      obtain ⟨q, hq, hmem⟩ := hex
      rcases List.mem_cons.mp hq with rfl | hq2
      · exact absurd (hacc _ hmem) hhas
      · exact ih ⟨q, hq2, hmem⟩ _
          (fun v hv => SepSet.add_monotone acc v _ (hacc v hv))

/-! ### C2: state after a failed Place -/

/-- C2 counterexample.  A concrete `orderedStonePlacer` state on a 3×3 grid
where the candidate cursor `(1,0)` has squared separation `1` to the placed
stone `(0,0)` and `1` is already in the separation set: `Place` does return
the error, but the receiver afterwards is *not* equal to the receiver before
the call — the deferred closure advanced its cursor. -/
theorem C2_counterexample :
    (∃ p ∈ ([⟨0, 0⟩, ⟨0, 1⟩] : List Point),
      Separation (⟨1, 0⟩ : Point) p ∈ ({1} : Finset Nat)) ∧
    ((⟨⟨3⟩, [⟨0, 0⟩, ⟨0, 1⟩], ({1} : Finset Nat), ⟨1, 0⟩⟩ :
        OrderedStonePlacer finsetSepImpl.σ).Place finsetSepImpl).2 = none ∧
    ((⟨⟨3⟩, [⟨0, 0⟩, ⟨0, 1⟩], ({1} : Finset Nat), ⟨1, 0⟩⟩ :
        OrderedStonePlacer finsetSepImpl.σ).Place finsetSepImpl).1 ≠
      (⟨⟨3⟩, [⟨0, 0⟩, ⟨0, 1⟩], ({1} : Finset Nat), ⟨1, 0⟩⟩ :
        OrderedStonePlacer finsetSepImpl.σ) := by
  refine ⟨⟨⟨0, 0⟩, by decide, by decide⟩, rfl, fun h => ?_⟩
  exact absurd (congrArg OrderedStonePlacer.nextStone h) (by decide)

/-- C2 (amended).  When the candidate cursor point has a squared separation
to an already-placed stone that is already in the separation set, `Place`
returns the error and leaves the placements, the separation set and the grid
unchanged, but the receiver's cursor *is* advanced by one cell (the deferred
closure runs on both paths).  First conjunct: `orderedStonePlacer` with any
lawful separation-set implementation.  Second conjunct:
`orderedNoAllocStonePlacer` on its arena (with bit-array separation sets, as
`OrderedNoAllocStonePlacerProvider.New` allocates them): the child slot's
separation set receives the partial adds, every other slot keeps its stones,
grid and cursor, and the parent slot only has its cursor advanced. -/
theorem C2_failed_place_advances_cursor :
    (∀ (I : SepImpl) (abs : I.σ → Finset Nat), LawfulSep I abs →
      ∀ sp : OrderedStonePlacer I.σ,
      (∃ p ∈ sp.stones, Separation sp.nextStone p ∈ abs sp.separations) →
      (sp.Place I).2 = none ∧
      (sp.Place I).1.stones = sp.stones ∧
      (sp.Place I).1.separations = sp.separations ∧
      (sp.Place I).1.grid = sp.grid ∧
      (sp.Place I).1.nextStone = AdvanceStone sp.grid sp.nextStone) ∧
    (∀ (arena : List NoAllocPlacer) (d : Nat), d + 1 < arena.length →
      (∃ cf, (arena.getD (d + 1) default).separations = SepSet.bits cf) →
      (∃ pf, (arena.getD d default).separations = SepSet.bits pf) →
      (∃ p ∈ (arena.getD d default).stones,
        ((arena.getD d default).separations).Has
          (Separation (arena.getD d default).nextStone p) = true) →
      (NoAllocPlace arena d).2 = none ∧
      ((NoAllocPlace arena d).1.getD d default).stones =
        (arena.getD d default).stones ∧
      ((NoAllocPlace arena d).1.getD d default).separations =
        (arena.getD d default).separations ∧
      ((NoAllocPlace arena d).1.getD d default).grid =
        (arena.getD d default).grid ∧
      ((NoAllocPlace arena d).1.getD d default).nextStone =
        AdvanceStone (arena.getD d default).grid
          (arena.getD d default).nextStone ∧
      ((NoAllocPlace arena d).1.getD (d + 1) default).stones =
        (arena.getD (d + 1) default).stones ∧
      (∀ j, j ≠ d → j ≠ d + 1 →
        (NoAllocPlace arena d).1.getD j default = arena.getD j default)) := by
  constructor
  · intro I abs hL sp hex
    have hc : placeCheck I sp.separations sp.nextStone sp.stones = none :=
      placeCheck_none hL sp.nextStone sp.stones sp.separations sp.separations
        (fun v hv => hv) hex
    unfold OrderedStonePlacer.Place
    rw [hc]
    exact ⟨rfl, rfl, rfl, rfl, rfl⟩
  · intro arena d hd hcf hpf hex
    obtain ⟨cf, hcf⟩ := hcf
    obtain ⟨pf, hpf⟩ := hpf
    have hclone : ((arena.getD (d + 1) default).separations.Clone
        (arena.getD d default).separations) =
        (arena.getD d default).separations := by
      rw [hcf, hpf]
      exact SepSet.clone_bits cf pf
    have hfail : (placeSepsLoop
        ((arena.getD (d + 1) default).separations.Clone
          (arena.getD d default).separations)
        (arena.getD d default).nextStone (arena.getD d default).stones).2
        = false := by
      rw [hclone]
      exact placeSepsLoop_fails _ _ _ hex _ (fun v hv => hv)
    have hdlen : d < arena.length := by omega
    simp only [NoAllocPlace, hfail, Bool.false_eq_true, if_false]
    refine ⟨trivial, ?_, ?_, ?_, ?_, ?_, ?_⟩
    · rw [getD_set_eq _ _ _ (by simpa using hdlen)]
    · rw [getD_set_eq _ _ _ (by simpa using hdlen)]
    · rw [getD_set_eq _ _ _ (by simpa using hdlen)]
    · rw [getD_set_eq _ _ _ (by simpa using hdlen)]
    · rw [getD_set_ne _ _ _ _ (by omega), getD_set_eq _ _ _ hd]
    · intro j hjd hjd1
      rw [getD_set_ne _ _ _ _ (fun h => hjd h.symm),
        getD_set_ne _ _ _ _ (fun h => hjd1 h.symm)]

/-- A two-slot arena for `orderedNoAllocStonePlacer` on a 3×3 grid whose
depth-0 slot holds stones `(0,0), (0,1)`, a bit-array separation set already
containing `1`, and cursor `(1,0)` (squared separation `1` to `(0,0)`). -/
def exampleArenaFail : List NoAllocPlacer :=
  [⟨⟨3⟩, [⟨0, 0⟩, ⟨0, 1⟩], SepSet.bits (fun i => if i = 0 then 0x42 else 0), ⟨1, 0⟩⟩,
   ⟨⟨3⟩, [⟨9, 9⟩, ⟨9, 9⟩, ⟨9, 9⟩], SepSet.bits (fun _ => 0), ⟨0, 0⟩⟩]

/-- Witness for the amended C2 at concrete inputs: the plain placer from the
counterexample state, and the no-alloc arena `exampleArenaFail` at depth 0. -/
theorem C2_witness :
    (((⟨⟨3⟩, [⟨0, 0⟩, ⟨0, 1⟩], ({1} : Finset Nat), ⟨1, 0⟩⟩ :
        OrderedStonePlacer finsetSepImpl.σ).Place finsetSepImpl).2 = none ∧
     ((⟨⟨3⟩, [⟨0, 0⟩, ⟨0, 1⟩], ({1} : Finset Nat), ⟨1, 0⟩⟩ :
        OrderedStonePlacer finsetSepImpl.σ).Place finsetSepImpl).1.nextStone
        = AdvanceStone ⟨3⟩ ⟨1, 0⟩) ∧
    (NoAllocPlace exampleArenaFail 0).2 = none ∧
    ((NoAllocPlace exampleArenaFail 0).1.getD 0 default).stones =
      (exampleArenaFail.getD 0 default).stones ∧
    ((NoAllocPlace exampleArenaFail 0).1.getD 0 default).separations =
      (exampleArenaFail.getD 0 default).separations ∧
    ((NoAllocPlace exampleArenaFail 0).1.getD 0 default).nextStone =
      AdvanceStone ⟨3⟩ ⟨1, 0⟩ := by
  have h1 := C2_failed_place_advances_cursor.1 finsetSepImpl id
    finsetSepImpl_lawful
    (⟨⟨3⟩, [⟨0, 0⟩, ⟨0, 1⟩], ({1} : Finset Nat), ⟨1, 0⟩⟩ :
      OrderedStonePlacer finsetSepImpl.σ)
    ⟨⟨0, 0⟩, by decide, by decide⟩
  have h2 := C2_failed_place_advances_cursor.2 exampleArenaFail 0 (by decide)
    ⟨fun _ => 0, rfl⟩ ⟨fun i => if i = 0 then 0x42 else 0, rfl⟩
    ⟨⟨0, 0⟩, by decide, by decide⟩
  exact ⟨⟨h1.1, h1.2.2.2.2⟩, h2.1, h2.2.1, h2.2.2.1, h2.2.2.2.2.1⟩

/-! ### C10: a successful no-alloc Place writes only the child slot -/

/-- C10.  A successful `orderedNoAllocStonePlacer.Place` at depth `d` (with
the arena's usual shape: the child slot preallocated with one more stone
than the parent) writes only the child slot at depth `d+1` — its stones
become the parent's stones followed by the cursor point, its separation set
the checked set, its cursor the advanced one — while the parent slot keeps
its stones, separation set and grid and only its cursor advances, and every
other arena slot is untouched; so backtracking to the parent resumes from a
consistent state. -/
theorem C10_noalloc_place_frame (arena : List NoAllocPlacer) (d : Nat)
    (hd : d + 1 < arena.length)
    (hlen : (arena.getD (d + 1) default).stones.length =
      (arena.getD d default).stones.length + 1)
    (hsucc : (NoAllocPlace arena d).2 = some (d + 1)) :
    ((NoAllocPlace arena d).1.getD d default).stones =
      (arena.getD d default).stones ∧
    ((NoAllocPlace arena d).1.getD d default).separations =
      (arena.getD d default).separations ∧
    ((NoAllocPlace arena d).1.getD d default).grid =
      (arena.getD d default).grid ∧
    ((NoAllocPlace arena d).1.getD d default).nextStone =
      AdvanceStone (arena.getD d default).grid
        (arena.getD d default).nextStone ∧
    ((NoAllocPlace arena d).1.getD (d + 1) default).stones =
      (arena.getD d default).stones ++ [(arena.getD d default).nextStone] ∧
    ((NoAllocPlace arena d).1.getD (d + 1) default).grid =
      (arena.getD (d + 1) default).grid ∧
    ((NoAllocPlace arena d).1.getD (d + 1) default).nextStone =
      AdvanceStone (arena.getD d default).grid
        (arena.getD d default).nextStone ∧
    (∀ j, j ≠ d → j ≠ d + 1 →
      (NoAllocPlace arena d).1.getD j default = arena.getD j default) := by
  have hdlen : d < arena.length := by omega
  by_cases hres : (placeSepsLoop
      ((arena.getD (d + 1) default).separations.Clone
        (arena.getD d default).separations)
      (arena.getD d default).nextStone (arena.getD d default).stones).2 = true
  · simp only [NoAllocPlace, hres, if_true]
    refine ⟨?_, ?_, ?_, ?_, ?_, ?_, ?_, ?_⟩
    · rw [getD_set_eq _ _ _ (by simpa using hdlen)]
    · rw [getD_set_eq _ _ _ (by simpa using hdlen)]
    · rw [getD_set_eq _ _ _ (by simpa using hdlen)]
    · rw [getD_set_eq _ _ _ (by simpa using hdlen)]
    · rw [getD_set_ne _ _ _ _ (by omega), getD_set_eq _ _ _ hd]
      exact goCopy_snoc _ _ _ hlen
    · rw [getD_set_ne _ _ _ _ (by omega), getD_set_eq _ _ _ hd]
    · rw [getD_set_ne _ _ _ _ (by omega), getD_set_eq _ _ _ hd]
    · intro j hjd hjd1
      rw [getD_set_ne _ _ _ _ (fun h => hjd h.symm),
        getD_set_ne _ _ _ _ (fun h => hjd1 h.symm)]
  · exfalso
    simp only [NoAllocPlace, hres, Bool.false_eq_true, if_false] at hsucc
    exact Option.noConfusion hsucc

/-- A two-slot arena on a 3×3 grid ready for a successful `Place` at depth 0:
the parent has one stone `(0,0)`, an empty bit-array separation set and
cursor `(0,1)`; the child slot is preallocated with two placeholder stones. -/
def exampleArenaOk : List NoAllocPlacer :=
  [⟨⟨3⟩, [⟨0, 0⟩], SepSet.bits (fun _ => 0), ⟨0, 1⟩⟩,
   ⟨⟨3⟩, [⟨9, 9⟩, ⟨9, 9⟩], SepSet.bits (fun _ => 0), ⟨0, 0⟩⟩]

/-- Witness for C10 on `exampleArenaOk`: the call succeeds, the parent slot
keeps its stones and only its cursor moves, and the child slot receives
stones `(0,0), (0,1)`. -/
theorem C10_witness :
    ((0 + 1 < exampleArenaOk.length ∧
      (exampleArenaOk.getD (0 + 1) default).stones.length =
        (exampleArenaOk.getD 0 default).stones.length + 1 ∧
      (NoAllocPlace exampleArenaOk 0).2 = some (0 + 1)) ∧
     ((NoAllocPlace exampleArenaOk 0).1.getD 0 default).stones =
       (exampleArenaOk.getD 0 default).stones ∧
     ((NoAllocPlace exampleArenaOk 0).1.getD (0 + 1) default).stones =
       (exampleArenaOk.getD 0 default).stones ++
         [(exampleArenaOk.getD 0 default).nextStone]) :=
  ⟨⟨by decide, by decide, by decide⟩,
   (C10_noalloc_place_frame exampleArenaOk 0 (by decide) (by decide)
      (by decide)).1,
   (C10_noalloc_place_frame exampleArenaOk 0 (by decide) (by decide)
      (by decide)).2.2.2.2.1⟩

/-! ### The pruners (pruner.go): runtime grid scan vs precomputed tables -/

/-- `grid.Iter`'s walk: every cell of the grid, row-major. -/
def gridPoints (g : Grid) : List Point :=
  (List.range g.size).flatMap
    (fun r => (List.range g.size).map (fun c => (⟨r, c⟩ : Point)))

theorem mem_gridPoints (g : Grid) (p : Point) :
    p ∈ gridPoints g ↔ p.row < g.size ∧ p.col < g.size := by
  cases p with
  | mk r c =>
    simp only [gridPoints, List.mem_flatMap, List.mem_map, List.mem_range]
    constructor
    · rintro ⟨r2, hr2, c2, hc2, heq⟩
      injection heq with h1 h2
      subst h1
      subst h2
      exact ⟨hr2, hc2⟩
    · rintro ⟨hr, hc⟩
      exact ⟨r, hr, c, hc, rfl⟩

theorem gridPoints_le13 (g : Grid) (hg : g.size ≤ 14) (w : Point)
    (hw : w ∈ gridPoints g) : w.row ≤ 13 ∧ w.col ≤ 13 := by
  have := (mem_gridPoints g w).mp hw
  omega

/-- The cells `runtimePruner.PruneIsoceles(_, p1, p2)` adds: those equidistant
(in squared separation) from `p1` and `p2`. -/
def isoCells (g : Grid) (p1 p2 : Point) : List Point :=
  (gridPoints g).filter (fun p3 => Separation p1 p3 == Separation p2 p3)

/-- The cells `runtimePruner.PruneCircles(_, p1, sep)` adds: those at squared
separation `sep` from `p1`. -/
def circleCells (g : Grid) (p1 : Point) (sep : Nat) : List Point :=
  (gridPoints g).filter (fun p2 => Separation p1 p2 == sep)

theorem mem_isoCells (g : Grid) (p1 p2 w : Point) :
    w ∈ isoCells g p1 p2 ↔
      (w ∈ gridPoints g ∧ Separation p1 w = Separation p2 w) := by
  simp [isoCells, List.mem_filter]

theorem mem_circleCells (g : Grid) (p1 : Point) (sep : Nat) (w : Point) :
    w ∈ circleCells g p1 sep ↔
      (w ∈ gridPoints g ∧ Separation p1 w = sep) := by
  simp [circleCells, List.mem_filter]

/-- `runtimePruner.PruneIsoceles`: iterate the whole grid, adding every
equidistant cell to the target set. -/
def runtimePruneIsoceles (g : Grid) (ps : PointSet) (p1 p2 : Point) : PointSet :=
  (isoCells g p1 p2).foldl PointSet.Add ps

/-- `runtimePruner.PruneCircles`: iterate the whole grid, adding every cell on
the circle to the target set. -/
def runtimePruneCircles (g : Grid) (ps : PointSet) (p1 : Point) (sep : Nat) :
    PointSet :=
  (circleCells g p1 sep).foldl PointSet.Add ps

/-- The precomputed pruner's cache arrays, indexed the way the Go arrays are
(by the cells' coordinates, and the separation). -/
structure PrecompTables where
  isoceles : Point → Point → PointSet
  circles : Point → Nat → PointSet

/-- A zero-valued `BitArrayPointSet`, the initial content of every table
entry. -/
def emptyBits : PointSet := PointSet.bits (fun _ => 0)

theorem emptyBits_has (p : Point) : emptyBits.Has p = false := by
  simp [emptyBits, PointSet.Has, Nat.zero_and]

/-- One iteration of `NewPrecomputedPruner`'s double loop: skip identical
pairs, otherwise run the runtime pruner into the two table entries for the
pair. -/
def precompStep (g : Grid) (t : PrecompTables) (pq : Point × Point) :
    PrecompTables :=
  if pq.1 = pq.2 then t
  else
    { isoceles := fun a b =>
        if a = pq.1 ∧ b = pq.2 then
          runtimePruneIsoceles g (t.isoceles a b) pq.1 pq.2
        else t.isoceles a b,
      circles := fun a s =>
        if a = pq.1 ∧ s = Separation pq.1 pq.2 then
          runtimePruneCircles g (t.circles a s) pq.1 (Separation pq.1 pq.2)
        else t.circles a s }

/-- All ordered pairs of grid cells, in the double loop's order. -/
def allPairs (g : Grid) : List (Point × Point) :=
  (gridPoints g).flatMap (fun a => (gridPoints g).map (fun b => (a, b)))

theorem mem_allPairs (g : Grid) (a b : Point) :
    (a, b) ∈ allPairs g ↔ a ∈ gridPoints g ∧ b ∈ gridPoints g := by
  simp only [allPairs, List.mem_flatMap, List.mem_map]
  constructor
  · rintro ⟨x, hx, y, hy, heq⟩
    injection heq with h1 h2
    subst h1
    subst h2
    exact ⟨hx, hy⟩
  · rintro ⟨ha, hb⟩
    exact ⟨a, ha, b, hb, rfl⟩

/-- `NewPrecomputedPruner`: fill the cache by running the runtime pruner for
every ordered pair of distinct cells. -/
def NewPrecomputedPruner (g : Grid) : PrecompTables :=
  (allPairs g).foldl (precompStep g)
    ⟨fun _ _ => emptyBits, fun _ _ => emptyBits⟩

/-- `precomputedPruner.PruneIsoceles`: union the cached entry into the
target. -/
def precompPruneIsoceles (t : PrecompTables) (ps : PointSet) (p1 p2 : Point) :
    PointSet :=
  ps.Union (t.isoceles p1 p2)

/-- `precomputedPruner.PruneCircles`: union the cached entry into the
target. -/
def precompPruneCircles (t : PrecompTables) (ps : PointSet) (p1 : Point)
    (sep : Nat) : PointSet :=
  ps.Union (t.circles p1 sep)

/-! Boundedness is preserved by adding grid cells. -/

theorem PointSet.bounded_map_def (s : List Point) :
    (PointSet.map s).bounded ↔
      ∀ p ∈ s, p.row < MaxGridSize ∧ p.col < MaxGridSize := Iff.rfl

theorem PointSet.bounded_bits_def (a : Nat → Nat) :
    (PointSet.bits a).bounded ↔
      ∀ p : Point, (PointSet.bits a).Has p = true →
        p.row < MaxGridSize ∧ p.col < MaxGridSize := Iff.rfl

theorem emptyBits_bounded : emptyBits.bounded := by
  rw [show emptyBits = PointSet.bits (fun _ => 0) from rfl,
    PointSet.bounded_bits_def]
  intro p hp
  rw [show PointSet.bits (fun _ => 0) = emptyBits from rfl, emptyBits_has] at hp
  exact absurd hp (by simp)

theorem PointSet.add_bounded (s : PointSet) (w : Point) (hs : s.bounded)
    (hw : w.row < MaxGridSize ∧ w.col < MaxGridSize) : (s.Add w).bounded := by
  cases s with
  | map t =>
    show (if w ∈ t then PointSet.map t else PointSet.map (w :: t)).bounded
    by_cases hmem : w ∈ t
    · rw [if_pos hmem]
      exact hs
    · rw [if_neg hmem]
      rw [PointSet.bounded_map_def]
      intro p hp
      rcases List.mem_cons.mp hp with rfl | hp2
      · exact hw
      · exact hs p hp2
  | bits a =>
    show (PointSet.bits (Function.update a w.row
        (a w.row ||| (0x8000 >>> w.col)))).bounded
    rw [PointSet.bounded_bits_def]
    intro p hp
    by_cases hcol : p.col ≤ 15
    · have hm := (PointSet.add_has_pt (PointSet.bits a) p w hcol (by
        unfold MaxGridSize at hw
        omega)).mp hp
      rcases hm with h | rfl
      · exact hs p h
      · exact hw
    · rw [PointSet.bits_has_high_col _ _ (by omega)] at hp
      exact absurd hp (by simp)

theorem PointSet.foldl_add_bounded (l : List Point)
    (hl : ∀ w ∈ l, w.row < MaxGridSize ∧ w.col < MaxGridSize) :
    ∀ s : PointSet, s.bounded → (l.foldl PointSet.Add s).bounded := by
  induction l with
  | nil =>
    intro s hs
    exact hs
  | cons w rest ih =>
    intro s hs
    rw [List.foldl_cons]
    exact ih (fun x hx => hl x (List.mem_cons_of_mem _ hx)) _
      (PointSet.add_bounded s w hs (hl w (List.mem_cons_self _ _)))

/-- Invariant of `NewPrecomputedPruner`'s double loop after processing the
pairs in `seen`: every table entry is bounded; an isoceles entry for a
processed distinct pair holds exactly the equidistant grid cells; a circles
entry holds exactly the circle's grid cells once some processed pair has
written it; all other entries are still zero-valued. -/
def TablesInv (g : Grid) (seen : List (Point × Point)) (t : PrecompTables) :
    Prop :=
  (∀ a b, (t.isoceles a b).bounded) ∧
  (∀ a s, (t.circles a s).bounded) ∧
  (∀ a b,
    ((a, b) ∈ seen ∧ a ≠ b →
      ∀ w, w.col ≤ 15 →
        ((t.isoceles a b).Has w = true ↔ w ∈ isoCells g a b)) ∧
    (¬((a, b) ∈ seen ∧ a ≠ b) → t.isoceles a b = emptyBits)) ∧
  (∀ a s,
    ((∃ b, ((a, b) ∈ seen ∧ a ≠ b) ∧ Separation a b = s) →
      ∀ w, w.col ≤ 15 →
        ((t.circles a s).Has w = true ↔ w ∈ circleCells g a s)) ∧
    (¬(∃ b, ((a, b) ∈ seen ∧ a ≠ b) ∧ Separation a b = s) →
      t.circles a s = emptyBits))

theorem precompStep_skip (g : Grid) (t : PrecompTables) (pq : Point × Point)
    (hpq : pq.1 = pq.2) : precompStep g t pq = t := by
  rw [precompStep, if_pos hpq]

theorem precompStep_iso (g : Grid) (t : PrecompTables) (pq : Point × Point)
    (hpq : ¬pq.1 = pq.2) (a b : Point) :
    (precompStep g t pq).isoceles a b =
      if a = pq.1 ∧ b = pq.2 then
        runtimePruneIsoceles g (t.isoceles a b) pq.1 pq.2
      else t.isoceles a b := by
  rw [precompStep, if_neg hpq]

theorem precompStep_circ (g : Grid) (t : PrecompTables) (pq : Point × Point)
    (hpq : ¬pq.1 = pq.2) (a : Point) (s : Nat) :
    (precompStep g t pq).circles a s =
      if a = pq.1 ∧ s = Separation pq.1 pq.2 then
        runtimePruneCircles g (t.circles a s) pq.1 (Separation pq.1 pq.2)
      else t.circles a s := by
  rw [precompStep, if_neg hpq]

theorem isoCells_cols (g : Grid) (hg : g.size ≤ 14) (p1 p2 : Point) :
    ∀ x ∈ isoCells g p1 p2, x.row < MaxGridSize ∧ x.col < MaxGridSize := by
  intro x hx
  have := gridPoints_le13 g hg x ((mem_isoCells g p1 p2 x).mp hx).1
  unfold MaxGridSize
  omega

theorem circleCells_cols (g : Grid) (hg : g.size ≤ 14) (p1 : Point) (s : Nat) :
    ∀ x ∈ circleCells g p1 s, x.row < MaxGridSize ∧ x.col < MaxGridSize := by
  intro x hx
  have := gridPoints_le13 g hg x ((mem_circleCells g p1 s x).mp hx).1
  unfold MaxGridSize
  omega

theorem tablesInv_step (g : Grid) (hg : g.size ≤ 14)
    (seen : List (Point × Point)) (t : PrecompTables) (pq : Point × Point)
    (hinv : TablesInv g seen t) :
    TablesInv g (seen ++ [pq]) (precompStep g t pq) := by
  obtain ⟨hbi, hbc, hiso, hcirc⟩ := hinv
  by_cases hpq : pq.1 = pq.2
  · rw [precompStep_skip g t pq hpq]
    refine ⟨hbi, hbc, ?_, ?_⟩
    · intro a b
      refine ⟨?_, ?_⟩
      · rintro ⟨hab, hne⟩ w hw
        rcases List.mem_append.mp hab with h | h
        · exact (hiso a b).1 ⟨h, hne⟩ w hw
        · exfalso
          rw [List.mem_singleton] at h
          apply hne
          rw [← h] at hpq
          exact hpq
      · intro hnot
        exact (hiso a b).2
          (fun hc => hnot ⟨List.mem_append.mpr (Or.inl hc.1), hc.2⟩)
    · intro a s
      refine ⟨?_, ?_⟩
      · rintro ⟨b, ⟨hab, hne⟩, hsep⟩ w hw
        rcases List.mem_append.mp hab with h | h
        · exact (hcirc a s).1 ⟨b, ⟨h, hne⟩, hsep⟩ w hw
        · exfalso
          rw [List.mem_singleton] at h
          apply hne
          rw [← h] at hpq
          exact hpq
      · intro hnot
        exact (hcirc a s).2 (fun ⟨b, ⟨hab, hne⟩, hsep⟩ =>
          hnot ⟨b, ⟨List.mem_append.mpr (Or.inl hab), hne⟩, hsep⟩)
  · refine ⟨?_, ?_, ?_, ?_⟩
    · intro a b
      rw [precompStep_iso g t pq hpq a b]
      by_cases hc : a = pq.1 ∧ b = pq.2
      · rw [if_pos hc]
        exact PointSet.foldl_add_bounded _ (isoCells_cols g hg pq.1 pq.2) _
          (hbi a b)
      · rw [if_neg hc]
        exact hbi a b
    · intro a s
      rw [precompStep_circ g t pq hpq a s]
      by_cases hc : a = pq.1 ∧ s = Separation pq.1 pq.2
      · rw [if_pos hc]
        exact PointSet.foldl_add_bounded _
          (circleCells_cols g hg pq.1 (Separation pq.1 pq.2)) _ (hbc a s)
      · rw [if_neg hc]
        exact hbc a s
    · intro a b
      rw [precompStep_iso g t pq hpq a b]
      by_cases hc : a = pq.1 ∧ b = pq.2
      · obtain ⟨h1, h2⟩ := hc
        rw [if_pos ⟨h1, h2⟩]
        have hne : a ≠ b := by
          rw [h1, h2]
          exact hpq
        refine ⟨?_, ?_⟩
        · rintro - w hw
          rw [← h1, ← h2]
          unfold runtimePruneIsoceles
          rw [PointSet.foldl_add_has_pt _ (fun x hx =>
            (by have := (isoCells_cols g hg a b x hx).2
                unfold MaxGridSize at this
                omega)) _ w hw]
          by_cases hseen : (a, b) ∈ seen
          · rw [(hiso a b).1 ⟨hseen, hne⟩ w hw]
            simp
          · rw [(hiso a b).2 (fun hc2 => hseen hc2.1), emptyBits_has]
            simp
        · intro hnot
          exfalso
          apply hnot
          refine ⟨List.mem_append.mpr (Or.inr ?_), hne⟩
          rw [List.mem_singleton, h1, h2]
      · rw [if_neg hc]
        refine ⟨?_, ?_⟩
        · rintro ⟨hab, hne⟩ w hw
          rcases List.mem_append.mp hab with h | h
          · exact (hiso a b).1 ⟨h, hne⟩ w hw
          · exfalso
            rw [List.mem_singleton] at h
            exact hc ⟨congrArg Prod.fst h, congrArg Prod.snd h⟩
        · intro hnot
          exact (hiso a b).2
            (fun hc2 => hnot ⟨List.mem_append.mpr (Or.inl hc2.1), hc2.2⟩)
    · intro a s
      rw [precompStep_circ g t pq hpq a s]
      by_cases hc : a = pq.1 ∧ s = Separation pq.1 pq.2
      · obtain ⟨h1, h2⟩ := hc
        rw [if_pos ⟨h1, h2⟩]
        refine ⟨?_, ?_⟩
        · rintro - w hw
          rw [← h2, ← h1]
          unfold runtimePruneCircles
          rw [PointSet.foldl_add_has_pt _ (fun x hx =>
            (by have := (circleCells_cols g hg a s x hx).2
                unfold MaxGridSize at this
                omega)) _ w hw]
          by_cases hex : ∃ b, ((a, b) ∈ seen ∧ a ≠ b) ∧ Separation a b = s
          · rw [(hcirc a s).1 hex w hw]
            simp
          · rw [(hcirc a s).2 hex, emptyBits_has]
            simp
        · intro hnot
          exfalso
          apply hnot
          refine ⟨pq.2, ⟨List.mem_append.mpr (Or.inr ?_), ?_⟩, ?_⟩
          · rw [List.mem_singleton, h1]
          · rw [h1]
            exact hpq
          · rw [h1]
            exact h2.symm
      · rw [if_neg hc]
        refine ⟨?_, ?_⟩
        · rintro ⟨b, ⟨hab, hne⟩, hsep⟩ w hw
          rcases List.mem_append.mp hab with h | h
          · exact (hcirc a s).1 ⟨b, ⟨h, hne⟩, hsep⟩ w hw
          · exfalso
            rw [List.mem_singleton] at h
            have ha : a = pq.1 := congrArg Prod.fst h
            have hb : b = pq.2 := congrArg Prod.snd h
            apply hc
            refine ⟨ha, ?_⟩
            rw [← hsep, ha, hb]
        · intro hnot
          exact (hcirc a s).2 (fun ⟨b, ⟨hab, hne⟩, hsep⟩ =>
            hnot ⟨b, ⟨List.mem_append.mpr (Or.inl hab), hne⟩, hsep⟩)

theorem tablesInv_init (g : Grid) :
    TablesInv g [] ⟨fun _ _ => emptyBits, fun _ _ => emptyBits⟩ := by
  refine ⟨fun a b => emptyBits_bounded, fun a s => emptyBits_bounded, ?_, ?_⟩
  · intro a b
    exact ⟨fun h => absurd h.1 (List.not_mem_nil _), fun _ => rfl⟩
  · intro a s
    exact ⟨fun ⟨b, hb, _⟩ => absurd hb.1 (List.not_mem_nil _), fun _ => rfl⟩

theorem tablesInv_foldl (g : Grid) (hg : g.size ≤ 14) :
    ∀ (L seen : List (Point × Point)) (t : PrecompTables),
      TablesInv g seen t →
      TablesInv g (seen ++ L) (L.foldl (precompStep g) t) := by
  intro L
  induction L with
  | nil =>
    intro seen t h
    simpa using h
  | cons pq rest ih =>
    intro seen t h
    rw [List.foldl_cons]
    have h2 := ih (seen ++ [pq]) _ (tablesInv_step g hg seen t pq h)
    rw [List.append_assoc] at h2
    simpa using h2

theorem tablesInv_new (g : Grid) (hg : g.size ≤ 14) :
    TablesInv g (allPairs g) (NewPrecomputedPruner g) := by
  have h := tablesInv_foldl g hg (allPairs g) [] _ (tablesInv_init g)
  rw [List.nil_append] at h
  exact h

theorem separation_self (p : Point) : Separation p p = 0 := by
  simp [Separation]

/-- C5.  On every grid of side at most the maximum (14), the runtime pruner
and the precomputed pruner add exactly the same points to any bounded target
set: `PruneIsoceles` agrees for every pair of distinct grid cells, and
`PruneCircles` agrees for every grid cell and every nonzero separation (every
separation achievable between two distinct points is nonzero; at separation 0
or for an isoceles call with `p1 = p2` the precomputed table entry was
skipped by the `p1 == p2` guard while the runtime scan would add points, so
those degenerate calls are outside the claim's pairs).  Agreement is stated
as equal membership of every cell of the maximal grid in the two result
sets. -/
theorem C5_pruner_equivalence (g : Grid) (hg : g.size ≤ 14)
    (ps : PointSet) (hps : ps.bounded) (w : Point)
    (hwr : w.row < MaxGridSize) (hwc : w.col < MaxGridSize) :
    (∀ p1 p2 : Point, p1 ∈ gridPoints g → p2 ∈ gridPoints g → p1 ≠ p2 →
      ((precompPruneIsoceles (NewPrecomputedPruner g) ps p1 p2).Has w = true ↔
        (runtimePruneIsoceles g ps p1 p2).Has w = true)) ∧
    (∀ (p1 : Point) (sep : Nat), p1 ∈ gridPoints g → sep ≠ 0 →
      ((precompPruneCircles (NewPrecomputedPruner g) ps p1 sep).Has w = true ↔
        (runtimePruneCircles g ps p1 sep).Has w = true)) := by
  obtain ⟨hbi, hbc, hiso, hcirc⟩ := tablesInv_new g hg
  have hwc15 : w.col ≤ 15 := by
    unfold MaxGridSize at hwc
    omega
  constructor
  · intro p1 p2 hp1 hp2 hne
    have hpair : (p1, p2) ∈ allPairs g := (mem_allPairs g p1 p2).mpr ⟨hp1, hp2⟩
    have hchar := (hiso p1 p2).1 ⟨hpair, hne⟩ w hwc15
    unfold precompPruneIsoceles runtimePruneIsoceles
    rw [PointSet.union_has_pt ps _ hps (hbi p1 p2) w hwr hwc]
    rw [PointSet.foldl_add_has_pt _ (fun x hx =>
      (by have := (isoCells_cols g hg p1 p2 x hx).2
          unfold MaxGridSize at this
          omega)) ps w hwc15]
    rw [hchar]
  · intro p1 sep hp1 hsep
    have hcols : ∀ x ∈ circleCells g p1 sep, x.col ≤ 15 := fun x hx =>
      (by have := (circleCells_cols g hg p1 sep x hx).2
          unfold MaxGridSize at this
          omega)
    by_cases hex : ∃ b, ((p1, b) ∈ allPairs g ∧ p1 ≠ b) ∧ Separation p1 b = sep
    · have hchar := (hcirc p1 sep).1 hex w hwc15
      unfold precompPruneCircles runtimePruneCircles
      rw [PointSet.union_has_pt ps _ hps (hbc p1 sep) w hwr hwc]
      rw [PointSet.foldl_add_has_pt _ hcols ps w hwc15]
      rw [hchar]
    · have hempty := (hcirc p1 sep).2 hex
      unfold precompPruneCircles runtimePruneCircles
      rw [PointSet.union_has_pt ps _ hps (hbc p1 sep) w hwr hwc]
      rw [PointSet.foldl_add_has_pt _ hcols ps w hwc15]
      rw [hempty, emptyBits_has]
      have hnomem : w ∉ circleCells g p1 sep := by
        intro hmem
        obtain ⟨hgp, hsepw⟩ := (mem_circleCells g p1 sep w).mp hmem
        apply hex
        refine ⟨w, ⟨(mem_allPairs g p1 w).mpr ⟨hp1, hgp⟩, ?_⟩, hsepw⟩
        intro h
        rw [← h, separation_self] at hsepw
        exact hsep hsepw.symm
      simp [hnomem]

/-- Witness for C5 on the 3×3 grid: the fresh bit-array target set, the
distinct cells `(0,0)` and `(1,1)`, separation `1`, and the probe cell
`(0,1)` (which lies both on the perpendicular bisector of the pair and on the
unit circle around `(0,0)`). -/
theorem C5_witness :
    ((⟨0, 0⟩ : Point) ∈ gridPoints ⟨3⟩ ∧ (⟨1, 1⟩ : Point) ∈ gridPoints ⟨3⟩ ∧
      (⟨0, 0⟩ : Point) ≠ (⟨1, 1⟩ : Point) ∧ (1 : Nat) ≠ 0) ∧
    ((precompPruneIsoceles (NewPrecomputedPruner ⟨3⟩)
        (PointSet.bits (fun _ => 0)) ⟨0, 0⟩ ⟨1, 1⟩).Has ⟨0, 1⟩ = true ↔
      (runtimePruneIsoceles ⟨3⟩
        (PointSet.bits (fun _ => 0)) ⟨0, 0⟩ ⟨1, 1⟩).Has ⟨0, 1⟩ = true) ∧
    ((precompPruneCircles (NewPrecomputedPruner ⟨3⟩)
        (PointSet.bits (fun _ => 0)) ⟨0, 0⟩ 1).Has ⟨0, 1⟩ = true ↔
      (runtimePruneCircles ⟨3⟩
        (PointSet.bits (fun _ => 0)) ⟨0, 0⟩ 1).Has ⟨0, 1⟩ = true) :=
  ⟨⟨by decide, by decide, by decide, by decide⟩,
   (C5_pruner_equivalence ⟨3⟩ (by decide) (PointSet.bits (fun _ => 0))
      emptyBits_bounded ⟨0, 1⟩ (by decide) (by decide)).1
     ⟨0, 0⟩ ⟨1, 1⟩ (by decide) (by decide) (by decide),
   (C5_pruner_equivalence ⟨3⟩ (by decide) (PointSet.bits (fun _ => 0))
      emptyBits_bounded ⟨0, 1⟩ (by decide) (by decide)).2
     ⟨0, 0⟩ 1 (by decide) (by decide)⟩

/-! ### C8: constructing placers from seed placements -/

def PointSet.Clear : PointSet → PointSet
  | PointSet.map _ => PointSet.map []
  | PointSet.bits _ => PointSet.bits (fun _ => 0)

/-- `BitArrayPointSet.Clone` copies the array when the source is also a bit
array; `genericPointSetClone` (clear, then union) otherwise. -/
def PointSet.Clone : PointSet → PointSet → PointSet
  | PointSet.bits _, PointSet.bits b => PointSet.bits b
  | s, t => (s.Clear).Union t

/-- One slot of `orderedOpportunisticPruningNoAllocStonePlacer`'s arena. -/
structure OpportunisticPlacer where
  grid : Grid
  stones : List Point
  separations : SepSet
  pruned : PointSet
  nextStone : Point

instance : Inhabited OpportunisticPlacer :=
  ⟨⟨⟨0⟩, [], SepSet.bits (fun _ => 0), PointSet.bits (fun _ => 0), ⟨0, 0⟩⟩⟩

/-- `orderedOpportunisticPruningNoAllocStonePlacer.advance`: step the cursor
until it leaves the grid or lands on an unpruned cell. -/
def oppAdvance (g : Grid) (pruned : PointSet) : Nat → Point → Point
  | 0, p => p
  | fuel + 1, p =>
    if IsInBounds g (AdvanceStone g p) then
      if pruned.Has (AdvanceStone g p) then
        oppAdvance g pruned fuel (AdvanceStone g p)
      else AdvanceStone g p
    else AdvanceStone g p

/-- The constraint-check-and-prune loop of the opportunistic `Place`: on a
duplicate separation stop with failure (partial updates stay), otherwise add
the separation and prune isoceles apexes and both circles, with the runtime
pruner as the provider's pruner. -/
def oppPlaceLoop (g : Grid) (seps : SepSet) (pruned : PointSet) (next : Point) :
    List Point → SepSet × PointSet × Bool
  | [] => (seps, pruned, true)
  | p :: rest =>
    let s := Separation next p
    if seps.Has s then (seps, pruned, false)
    else
      oppPlaceLoop g (seps.Add s)
        (runtimePruneCircles g
          (runtimePruneCircles g (runtimePruneIsoceles g pruned p next) p s)
          next s)
        next rest

/-- `orderedOpportunisticPruningNoAllocStonePlacer.Place` on the arena at
depth `d`.  The child slot receives the cloned-and-updated sets (and, on
success, the stones and the advanced cursor); the deferred `advance` moves
the parent's cursor in both outcomes.  The seeding loop discards `Place`'s
error return, so only the arena is produced here. -/
def oppPlace (g : Grid) (arena : List OpportunisticPlacer) (d : Nat) :
    List OpportunisticPlacer :=
  let sp := arena.getD d default
  let child := arena.getD (d + 1) default
  let res := oppPlaceLoop g (child.separations.Clone sp.separations)
    (child.pruned.Clone sp.pruned) sp.nextStone sp.stones
  let sp2 := { sp with nextStone := oppAdvance g sp.pruned 256 sp.nextStone }
  match res with
  | (seps2, pruned2, false) =>
    (arena.set (d + 1)
      { child with separations := seps2, pruned := pruned2 }).set d sp2
  | (seps2, pruned2, true) =>
    (arena.set (d + 1)
      { grid := child.grid,
        stones := (goCopy child.stones sp.stones).set sp.stones.length
          sp.nextStone,
        separations := seps2,
        pruned := pruned2,
        nextStone := oppAdvance g pruned2 256 sp.nextStone }).set d sp2

/-- The seeding loop of the opportunistic pruning provider's `New`: panic
(modelled as `none`) when a seed stone is already in its slot's pruned set,
otherwise set the cursor, `Place`, and continue, discarding any error. -/
def oppSeed (g : Grid) :
    List OpportunisticPlacer → Nat → List Point →
      Option (List OpportunisticPlacer)
  | arena, _, [] => some arena
  | arena, i, stone :: rest =>
    if ((arena.getD i default).pruned).Has stone then none
    else
      oppSeed g
        (oppPlace g
          (arena.set i { arena.getD i default with nextStone := stone }) i)
        (i + 1) rest

/-- The arena the provider's `New` allocates: `g.Size+1` placers, the one at
depth `i` holding `i` zero-valued stones, fresh bit arrays, and the origin
cursor. -/
def initOppArena (g : Grid) : List OpportunisticPlacer :=
  (List.range (g.size + 1)).map (fun i =>
    ⟨g, List.replicate i ⟨0, 0⟩, SepSet.bits (fun _ => 0),
      PointSet.bits (fun _ => 0), ⟨0, 0⟩⟩)

/-- Insertion sort by row-major order: the result of `Placements.Sort`. -/
def insertPoint (x : Point) : List Point → List Point
  | [] => [x]
  | y :: rest =>
    if LessThan x y then x :: y :: rest else y :: insertPoint x rest

def sortPlacements : List Point → List Point
  | [] => []
  | x :: rest => insertPoint x (sortPlacements rest)

/-- `OrderedOpportunisticPruningNoAllocStonePlacerProvider.New` (with the
runtime pruner): sort the seed, then run the seeding loop; `none` is the
`Invalid placement, already pruned` panic. -/
def OrderedOpportunisticPruningNoAllocStonePlacerProvider.New (g : Grid)
    (p : List Point) : Option (List OpportunisticPlacer) :=
  oppSeed g (initOppArena g) 0 (sortPlacements p)

/-- C8 counterexample.  The seed `(0,0), (0,1), (0,2)` on the 3×3 grid
already violates the uniqueness invariant (squared separation 1 occurs twice
among its pairwise separations), yet `OrderedStonePlacerProvider.New`
completes normally — no panic — and returns a placer holding that corrupt
seed, with the cursor just after it. -/
theorem C8_counterexample :
    ¬(sepList [(⟨0, 0⟩ : Point), ⟨0, 1⟩, ⟨0, 2⟩]).Nodup ∧
    (OrderedStonePlacerProvider.New finsetSepImpl ⟨3⟩
      [⟨0, 0⟩, ⟨0, 1⟩, ⟨0, 2⟩]).stones = [⟨0, 0⟩, ⟨0, 1⟩, ⟨0, 2⟩] ∧
    (OrderedStonePlacerProvider.New finsetSepImpl ⟨3⟩
      [⟨0, 0⟩, ⟨0, 1⟩, ⟨0, 2⟩]).nextStone = ⟨1, 0⟩ :=
  ⟨by decide, rfl, rfl⟩

/-- C8 (amended).  `OrderedStonePlacerProvider.New` never aborts: even for a
seed placement that already violates the uniqueness invariant it returns a
placer carrying the corrupt seed verbatim, ready to search from it (first
conjunct).  Only the pruning constructors panic, and only on the pruned-cell
condition: seeding the opportunistic pruning provider on the 3×3 grid with
`(0,0), (0,1), (0,2)` — whose third stone lies in a cell the first two
pruned — aborts construction (second conjunct). -/
theorem C8_seed_construction :
    (∀ (I : SepImpl) (g : Grid) (p : List Point), ¬(sepList p).Nodup →
      (OrderedStonePlacerProvider.New I g p).stones = p ∧
      (OrderedStonePlacerProvider.New I g p).grid = g ∧
      (OrderedStonePlacerProvider.New I g p).separations = I.init p) ∧
    OrderedOpportunisticPruningNoAllocStonePlacerProvider.New ⟨3⟩
      [⟨0, 0⟩, ⟨0, 1⟩, ⟨0, 2⟩] = none := by
  refine ⟨fun I g p hp => ⟨rfl, rfl, rfl⟩, ?_⟩
  rfl

/-- Witness for C8: the uniqueness-violating seed from the counterexample for
the plain constructor, and the opportunistic provider's concrete panic. -/
theorem C8_witness :
    (¬(sepList [(⟨0, 0⟩ : Point), ⟨0, 1⟩, ⟨0, 2⟩]).Nodup ∧
     (OrderedStonePlacerProvider.New finsetSepImpl ⟨3⟩
       [⟨0, 0⟩, ⟨0, 1⟩, ⟨0, 2⟩]).stones = [⟨0, 0⟩, ⟨0, 1⟩, ⟨0, 2⟩]) ∧
    OrderedOpportunisticPruningNoAllocStonePlacerProvider.New ⟨3⟩
      [⟨0, 0⟩, ⟨0, 1⟩, ⟨0, 2⟩] = none :=
  ⟨⟨by decide, (C8_seed_construction.1 finsetSepImpl ⟨3⟩ _ (by decide)).1⟩,
   C8_seed_construction.2⟩

end Pegboard
